import Mathlib

/-!
Verification of the HabitTracker streak engine (src/habit_tracker/analytics.py)
against its specification.

Dates are modelled the way Python's `datetime.date` represents them: by their
proleptic-Gregorian ordinal (`date.toordinal()`, with `date(1,1,1).toordinal() = 1`).
A completion timestamp is modelled by the ordinal of its date, since only the
date portion of `completed_at` is ever used by the analytics code.

Integer division `/` and remainder `%` on `Int` in this file have Euclidean
semantics, which agree with Python's floor division `//` and `%` for the
positive divisors used throughout.
-/

/-- Gregorian leap-year test, as in Python's `calendar.isleap` /
`datetime`'s internal `_is_leap`. -/
def isLeap (y : Int) : Bool :=
  y % 4 == 0 && (y % 100 != 0 || y % 400 == 0)

/-- Number of days in month `m` of year `y` (Python `_days_in_month`). -/
def daysInMonth (y m : Int) : Int :=
  if m = 2 then (if isLeap y then 29 else 28)
  else if m = 4 ∨ m = 6 ∨ m = 9 ∨ m = 11 then 30
  else 31

/-- Number of days in year `y` that precede the first of month `m`
(Python `_days_before_month`), written as a sum of guards so that
`omega` can reason about it after a case split on `m`. -/
def daysBeforeMonth (y m : Int) : Int :=
  (if 1 < m then 31 else 0) + (if 2 < m then 28 else 0) + (if 3 < m then 31 else 0) +
  (if 4 < m then 30 else 0) + (if 5 < m then 31 else 0) + (if 6 < m then 30 else 0) +
  (if 7 < m then 31 else 0) + (if 8 < m then 31 else 0) + (if 9 < m then 30 else 0) +
  (if 10 < m then 31 else 0) + (if 11 < m then 30 else 0) +
  (if 2 < m ∧ isLeap y = true then 1 else 0)

/-- Number of days before January 1 of year `y` (Python `_days_before_year`). -/
def daysBeforeYear (y : Int) : Int :=
  365 * (y - 1) + (y - 1) / 4 - (y - 1) / 100 + (y - 1) / 400

/-- Ordinal of the calendar date `(y, m, d)`: Python `date(y, m, d).toordinal()`. -/
def toOrdinal (y m d : Int) : Int :=
  daysBeforeYear y + daysBeforeMonth y m + d

/-- Days from 0000-03-01 to March 1 of March-based year `y`.  March-based
year `y` runs from March 1 of calendar year `y` to the end of February of
calendar year `y + 1`, so each leap day is the last day of its March year. -/
def dbMarch (y : Int) : Int :=
  365 * y + y / 4 - y / 100 + y / 400

/-- Decompose a day count `z` (days since 0000-03-01) into the March-based
year containing it and the 0-based day offset within that year, via the
400-year / 100-year / 4-year / 1-year cycle decomposition (the same cycle
structure as CPython's `_ord2ymd`). -/
def marchOfZ (z : Int) : Int × Int :=
  let era := z / 146097
  let doe := z % 146097
  let n100 := doe / 36524
  let r100 := doe % 36524
  let n4 := r100 / 1461
  let r4 := r100 % 1461
  let n1 := r4 / 365
  let r1 := r4 % 365
  if n100 = 4 ∨ n1 = 4 then
    (400 * era + 100 * n100 + 4 * n4 + n1 - 1, 365)
  else
    (400 * era + 100 * n100 + 4 * n4 + n1, r1)

/-- Inverse of `toOrdinal`: the calendar date `(y, m, d)` of ordinal `n`
(Python `date.fromordinal(n)`, i.e. `_ord2ymd`).  Months are recovered from
the day-of-March-year with the standard five-month pattern
`(153 * mp + 2) / 5`. -/
def fromOrdinal (n : Int) : Int × Int × Int :=
  let z := n + 305
  let ym := marchOfZ z
  let doy := ym.2
  let mp := (5 * doy + 2) / 153
  let d := doy - (153 * mp + 2) / 5 + 1
  let m := mp + (if mp < 10 then 3 else -9)
  (ym.1 + (if m ≤ 2 then 1 else 0), m, d)

/-- Calendar year of ordinal `n` (`date.fromordinal(n).year`). -/
def yearOf (n : Int) : Int := (fromOrdinal n).1

/-- Calendar month of ordinal `n` (`date.fromordinal(n).month`). -/
def monthOf (n : Int) : Int := (fromOrdinal n).2.1

/-- Day of month of ordinal `n` (`date.fromordinal(n).day`). -/
def dayOf (n : Int) : Int := (fromOrdinal n).2.2

/-- Python `date.weekday()`: Monday is 0.  Ordinal 1 (0001-01-01) is a Monday. -/
def weekday (n : Int) : Int := (n + 6) % 7

/-- The Monday of the ISO week containing ordinal `n`. -/
def monday (n : Int) : Int := n - weekday n

/-- Python `date.isocalendar()` restricted to its `(year, week)` components:
the ISO year is the calendar year of the Thursday of `n`'s week, and the ISO
week number counts Thursdays since the start of that year. -/
def isoPair (n : Int) : Int × Int :=
  let th := monday n + 3
  let y := yearOf th
  (y, (th - toOrdinal y 1 1) / 7 + 1)

deriving instance DecidableEq for Except

/-- First day (Monday) of the ISO week denoted by the ISO pair `(y, w)`:
the first Thursday of year `y` plus `7 * (w - 1)` days, minus 3.  This is the
spec's canonical representative of a weekly period key. -/
def mondayOfKey (y w : Int) : Int :=
  let jan1 := toOrdinal y 1 1
  let th1 := jan1 + (3 - weekday jan1) % 7
  th1 + 7 * (w - 1) - 3

/-- The `(year, month)` pair of ordinal `n`, as built by the MONTHLY branches
of `analytics.py` from `completed_at.year` and `completed_at.month`. -/
def monthPair (n : Int) : Int × Int := (yearOf n, monthOf n)

/-- The code's step to the previous month:
`check_date.replace(day=1) - timedelta(days=1)` (analytics.py lines 84 and 93). -/
def prevMonthEnd (n : Int) : Int := toOrdinal (yearOf n) (monthOf n) 1 - 1

/-- The value space of the `periodicity` argument.  `models.py` defines the
enum members DAILY, WEEKLY, MONTHLY; `OTHER` stands for any value that is not
a member of the enum.  The analytics code only compares the argument against
the three members with `==`, so every non-member value behaves identically,
and one representative suffices. -/
inductive PVal where
  | DAILY
  | WEEKLY
  | MONTHLY
  | OTHER
deriving DecidableEq

/-- A `HabitCompletion` record (models.py): only the fields read by the
analytics code are modelled.  `completed_at` holds the ordinal of the
completion's date (the code only ever uses the date portion, via `.date()`,
`.isocalendar()`, `.year`, `.month`). -/
structure HabitCompletion where
  habit_id : Int
  completed_at : Int
deriving DecidableEq

/-- Fueled model of the backward-counting `while` loops of `calculate_streak`
(analytics.py lines 42-45, 67-72, 89-95): while the current position tests as
completed, count it and step back one period.  The fuel given at each call
site is one more than the number of distinct period keys, which is provably
sufficient (`streakLoop_lt_fuel`): each successful test consumes a distinct
key, so the loop always reaches a failing test before the fuel runs out. -/
def streakLoop (present : Int → Prop) [DecidablePred present] (stepBack : Int → Int) :
    Nat → Int → Nat
  | 0, _ => 0
  | fuel + 1, d => if present d then streakLoop present stepBack fuel (stepBack d) + 1 else 0

/-- Model of `calculate_streak` (analytics.py lines 5-98).  The Python
function reads `now = datetime.now()` at line 26; the ambient clock value is
modelled as the explicit argument `now` (the ordinal of its date).  The
`raise ValueError("Invalid periodicity")` at line 98 is modelled as
`Except.error`.  Each branch builds the set of completed period keys (set
membership is modelled as list membership of the mapped list), applies the
one-period grace step if the current period is not completed, and then walks
backwards while periods are completed. -/
def calculate_streak (completions : List HabitCompletion) (p : PVal) (now : Int) :
    Except String Nat :=
  if completions = [] then .ok 0
  else
    match p with
    | .DAILY =>
      let completedDates := completions.map (fun c => c.completed_at)
      let fuel := completedDates.dedup.length + 1
      if now ∈ completedDates then
        .ok (streakLoop (fun d => d ∈ completedDates) (fun d => d - 1) fuel now)
      else if now - 1 ∈ completedDates then
        .ok (streakLoop (fun d => d ∈ completedDates) (fun d => d - 1) fuel (now - 1))
      else .ok 0
    | .WEEKLY =>
      let completedWeeks := completions.map (fun c => isoPair c.completed_at)
      let fuel := completedWeeks.dedup.length + 1
      if isoPair now ∈ completedWeeks then
        .ok (streakLoop (fun d => isoPair d ∈ completedWeeks) (fun d => d - 7) fuel now)
      else if isoPair (now - 7) ∈ completedWeeks then
        .ok (streakLoop (fun d => isoPair d ∈ completedWeeks) (fun d => d - 7) fuel (now - 7))
      else .ok 0
    | .MONTHLY =>
      let completedMonths := completions.map (fun c => monthPair c.completed_at)
      let fuel := completedMonths.dedup.length + 1
      if monthPair now ∈ completedMonths then
        .ok (streakLoop (fun d => monthPair d ∈ completedMonths) prevMonthEnd fuel now)
      else if monthPair (prevMonthEnd now) ∈ completedMonths then
        .ok (streakLoop (fun d => monthPair d ∈ completedMonths) prevMonthEnd fuel
          (prevMonthEnd now))
      else .ok 0
    | .OTHER => .error ("Invalid periodicity")

/-- The continuity test computed inside the scan of `get_streak_details`
(analytics.py lines 141-158).  `is_consecutive` starts as `False` and is only
assigned in the three recognised branches, so any other periodicity value
leaves it `False`. -/
def isConsecutive (p : PVal) (prev cur : Int) : Bool :=
  match p with
  | .DAILY => cur - prev == 1
  | .WEEKLY => monday cur - monday prev == 7
  | .MONTHLY => (yearOf cur * 12 + monthOf cur) - (yearOf prev * 12 + monthOf prev) == 1
  | .OTHER => false

/-- The loop state of the scan in `get_streak_details`:
`max_streak, current_streak, current_start, max_start, max_end`, plus `prev`,
which stands for `sorted_dates[i-1]`. -/
structure ScanState where
  maxStreak : Nat
  curStreak : Nat
  curStart : Int
  maxStart : Int
  maxEnd : Int
  prev : Int

/-- The scan over `sorted_dates[1:]` of `get_streak_details` (analytics.py
lines 129-175): extend the running streak on a consecutive key; otherwise
close it out (strict `>` comparison against the best) and restart at the
current key. -/
def scanLoop (p : PVal) : ScanState → List Int → ScanState
  | st, [] => st
  | st, d :: rest =>
    if isConsecutive p st.prev d then
      scanLoop p { st with curStreak := st.curStreak + 1, prev := d } rest
    else
      let st1 := if st.curStreak > st.maxStreak then
          { st with maxStreak := st.curStreak, maxStart := st.curStart, maxEnd := st.prev }
        else st
      scanLoop p { st1 with curStreak := 1, curStart := d, prev := d } rest

/-- `sorted(list({c.completed_at.date() for c in completions}))`
(analytics.py line 117): the deduplicated completion dates in ascending
order.  Note that this deduplicates calendar dates, not period keys. -/
def sortedUniqueDates (completions : List HabitCompletion) : List Int :=
  List.insertionSort (fun a b => a ≤ b) (completions.map (fun c => c.completed_at)).dedup

/-- Model of `get_streak_details` (analytics.py lines 100-183).  The `i = 0`
iteration initialises every state field from the first sorted date; after the
scan the final running streak is compared once more, with
`sorted_dates[-1]` as its end. -/
def get_streak_details (completions : List HabitCompletion) (p : PVal) :
    Nat × Option Int × Option Int :=
  if completions = [] then (0, none, none)
  else
    match sortedUniqueDates completions with
    | [] => (0, none, none)
    | d0 :: rest =>
      let st := scanLoop p ⟨1, 1, d0, d0, d0, d0⟩ rest
      if st.curStreak > st.maxStreak then
        (st.curStreak, some st.curStart, some ((d0 :: rest).getLast (by simp)))
      else (st.maxStreak, some st.maxStart, some st.maxEnd)

/-- A canonical period key as described by the spec (section 3): a date for
DAILY, an ISO `(year, week)` pair for WEEKLY, a `(year, month)` pair for
MONTHLY. -/
inductive PeriodKey where
  | day (d : Int)
  | week (y w : Int)
  | month (y m : Int)
deriving DecidableEq

/-- The spec's `toPeriodKey(timestamp, periodicity)` (section 4.1).  For
`OTHER` the spec prescribes an error; the junk value `.day t` returned here
is never used, since every property involving `toPeriodKey` assumes a valid
periodicity. -/
def toPeriodKey (p : PVal) (t : Int) : PeriodKey :=
  match p with
  | .DAILY => .day t
  | .WEEKLY => .week (isoPair t).1 (isoPair t).2
  | .MONTHLY => .month (yearOf t) (monthOf t)
  | .OTHER => .day t

/-- The spec's `predecessor(key)` (section 4.1): a day key steps back one
day; a weekly key steps back by re-deriving the ISO pair of a date 7 days
earlier (the spec's own prescription, guarding ISO year boundaries); a
monthly key decrements `(year, month)` with rollover. -/
def predKey : PeriodKey → PeriodKey
  | .day d => .day (d - 1)
  | .week y w =>
    .week (isoPair (mondayOfKey y w - 7)).1 (isoPair (mondayOfKey y w - 7)).2
  | .month y m => if m = 1 then .month (y - 1) 12 else .month y (m - 1)

/-- The list of period keys of a completion list under a periodicity (the
spec's deduplicated key set is its set of members). -/
def keysOf (completions : List HabitCompletion) (p : PVal) : List PeriodKey :=
  completions.map (fun c => toPeriodKey p c.completed_at)

/-- Length of the run of consecutive present keys ending at `k` (walking
backwards through `predKey`), fueled like `streakLoop` and with the same
sufficiency argument. -/
def chainLen (keys : List PeriodKey) : Nat → PeriodKey → Nat
  | 0, _ => 0
  | fuel + 1, k => if k ∈ keys then chainLen keys fuel (predKey k) + 1 else 0

/-- The spec's ongoing-streak policy (section 4.2), stated at the level of
period keys: count the run ending at the current key if it is present,
otherwise the run ending at its predecessor if that is present (one grace
period), otherwise 0. -/
def ongoingSpec (completions : List HabitCompletion) (p : PVal) (now : Int) : Nat :=
  let keys := keysOf completions p
  let fuel := keys.dedup.length + 1
  let cur := toPeriodKey p now
  if cur ∈ keys then chainLen keys fuel cur
  else if predKey cur ∈ keys then chainLen keys fuel (predKey cur)
  else 0

/-- Decompose a list into maximal runs of adjacent elements related by `R`. -/
def runsBy (R : Int → Int → Bool) : List Int → List (List Int)
  | [] => []
  | [d] => [[d]]
  | d :: e :: rest =>
    match runsBy R (e :: rest) with
    | [] => [[d]]
    | r :: rs => if R d e then (d :: r) :: rs else [d] :: r :: rs

/-- The first list of maximal length among a list of runs (strictly greater
length replaces the best, so ties keep the earliest run). -/
def pickBest : List (List Int) → Option (List Int)
  | [] => none
  | r :: rs => some (rs.foldl (fun best r2 => if r2.length > best.length then r2 else best) r)

/-- The spec's longest-streak contract (section 4.3), stated via the run
decomposition of the sorted unique dates: the length, first element and last
element of the earliest maximal run. -/
def longestSpec (completions : List HabitCompletion) (p : PVal) :
    Nat × Option Int × Option Int :=
  match pickBest (runsBy (isConsecutive p) (sortedUniqueDates completions)) with
  | none => (0, none, none)
  | some r => (r.length, r.head?, r.getLast?)

/-- The close-out comparison of `get_streak_details`: a finished run replaces
the best only when strictly longer (ties keep the earliest). -/
def closeOut (best run : Nat × Int × Int) : Nat × Int × Int :=
  if run.1 > best.1 then run else best

/-- The `(length, first element, last element)` triple of a run. -/
def runTriple (r : List Int) : Nat × Int × Int := (r.length, r.headI, r.getLastD 0)

/-- Abstract form of the scan: fold over the remaining runs, carrying the
best closed-run triple and the currently open run triple. -/
def scanSpec (best ext : Nat × Int × Int) :
    List (List Int) → (Nat × Int × Int) × (Nat × Int × Int)
  | [] => (best, ext)
  | r :: rs => scanSpec (closeOut best ext) (runTriple r) rs

/-- A totally ordered index for period keys of a given periodicity: the date
itself for day keys, the Monday of the week for week keys, `12 * y + m` for
month keys.  `predKey` decreases it by a fixed step, which yields the
distinctness of the keys visited by the backward walks. -/
def keyIdx : PeriodKey → Int
  | .day d => d
  | .week y w => mondayOfKey y w
  | .month y m => 12 * y + m

/-- Keys that actually denote periods: week pairs that are the ISO pair of
some date (equivalently, of their own canonical Monday), and month pairs with
a month between 1 and 12.  `toPeriodKey` only produces such keys. -/
def KeyInRange : PeriodKey → Prop
  | .day _ => True
  | .week y w => isoPair (mondayOfKey y w) = (y, w)
  | .month _ m => 1 ≤ m ∧ m ≤ 12

/-- The key the ongoing-streak walk starts from (spec section 4.2, steps 3-4):
the current period if it is completed, otherwise its predecessor (the one
grace period).  Only meaningful when the resulting streak is non-zero. -/
def startKey (c : List HabitCompletion) (p : PVal) (now : Int) : PeriodKey :=
  if toPeriodKey p now ∈ keysOf c p then toPeriodKey p now
  else predKey (toPeriodKey p now)

/-- Reassemble a `ScanState` from a `(best, open-run)` pair of
`(length, start, end)` triples, the shape produced by `scanSpec`. -/
def stOf (bc : (Nat × Int × Int) × (Nat × Int × Int)) : ScanState :=
  ⟨bc.1.1, bc.2.1, bc.2.2.1, bc.1.2.1, bc.1.2.2, bc.2.2.2⟩

theorem marchAux (era doe n100 r100 n4 r4 n1 r1 : Int)
    (h0 : 0 ≤ doe) (h00 : doe < 146097)
    (h1 : doe = 36524 * n100 + r100) (h2 : 0 ≤ r100) (h3 : r100 < 36524)
    (h4 : r100 = 1461 * n4 + r4) (h5 : 0 ≤ r4) (h6 : r4 < 1461)
    (h7 : r4 = 365 * n1 + r1) (h8 : 0 ≤ r1) (h9 : r1 < 365) :
    dbMarch (if n100 = 4 ∨ n1 = 4 then
        (400 * era + 100 * n100 + 4 * n4 + n1 - 1, (365 : Int))
      else (400 * era + 100 * n100 + 4 * n4 + n1, r1)).1 +
      (if n100 = 4 ∨ n1 = 4 then
        (400 * era + 100 * n100 + 4 * n4 + n1 - 1, (365 : Int))
      else (400 * era + 100 * n100 + 4 * n4 + n1, r1)).2 = 146097 * era + doe ∧
    0 ≤ (if n100 = 4 ∨ n1 = 4 then
        (400 * era + 100 * n100 + 4 * n4 + n1 - 1, (365 : Int))
      else (400 * era + 100 * n100 + 4 * n4 + n1, r1)).2 ∧
    (if n100 = 4 ∨ n1 = 4 then
        (400 * era + 100 * n100 + 4 * n4 + n1 - 1, (365 : Int))
      else (400 * era + 100 * n100 + 4 * n4 + n1, r1)).2 ≤ 365 ∧
    146097 * era + doe < dbMarch ((if n100 = 4 ∨ n1 = 4 then
        (400 * era + 100 * n100 + 4 * n4 + n1 - 1, (365 : Int))
      else (400 * era + 100 * n100 + 4 * n4 + n1, r1)).1 + 1) ∧
    ((if n100 = 4 ∨ n1 = 4 then
        (400 * era + 100 * n100 + 4 * n4 + n1 - 1, (365 : Int))
      else (400 * era + 100 * n100 + 4 * n4 + n1, r1)).2 = 365 →
      dbMarch ((if n100 = 4 ∨ n1 = 4 then
        (400 * era + 100 * n100 + 4 * n4 + n1 - 1, (365 : Int))
      else (400 * era + 100 * n100 + 4 * n4 + n1, r1)).1 + 1) =
      dbMarch (if n100 = 4 ∨ n1 = 4 then
        (400 * era + 100 * n100 + 4 * n4 + n1 - 1, (365 : Int))
      else (400 * era + 100 * n100 + 4 * n4 + n1, r1)).1 + 366) := by
  have hb1 : 0 ≤ n100 := by omega
  have hb2 : n100 ≤ 4 := by omega
  have hb3 : 0 ≤ n4 := by omega
  have hb4 : n4 ≤ 24 := by omega
  have hb5 : 0 ≤ n1 := by omega
  have hb6 : n1 ≤ 4 := by omega
  split
  · next h =>
    dsimp only [dbMarch]
    rcases h with h | h
    · have hr : r100 = 0 := by omega
      have hr2 : n4 = 0 := by omega
      have hr3 : n1 = 0 := by omega
      subst h hr2 hr3
      have e1 : (400 * era + 399) / 4 = 100 * era + 99 := by omega
      have e2 : (400 * era + 399) / 100 = 4 * era + 3 := by omega
      have e3 : (400 * era + 399) / 400 = era := by omega
      have e4 : (400 * era + 400) / 4 = 100 * era + 100 := by omega
      have e5 : (400 * era + 400) / 100 = 4 * era + 4 := by omega
      have e6 : (400 * era + 400) / 400 = era + 1 := by omega
      omega
    · have hn : n100 ≤ 3 := by omega
      have hn4 : n4 ≤ 23 := by omega
      subst h
      have e1 : (400 * era + 100 * n100 + 4 * n4 + 4 - 1) / 4 = 100 * era + 25 * n100 + n4 := by
        omega
      have e2 : (400 * era + 100 * n100 + 4 * n4 + 4 - 1) / 100 = 4 * era + n100 := by omega
      have e3 : (400 * era + 100 * n100 + 4 * n4 + 4 - 1) / 400 = era := by omega
      have e4 : (400 * era + 100 * n100 + 4 * n4 + 4 - 1 + 1) / 4 =
          100 * era + 25 * n100 + n4 + 1 := by omega
      have e5 : (400 * era + 100 * n100 + 4 * n4 + 4 - 1 + 1) / 100 = 4 * era + n100 := by omega
      have e6 : (400 * era + 100 * n100 + 4 * n4 + 4 - 1 + 1) / 400 = era := by omega
      omega
  · next h =>
    dsimp only [dbMarch]
    rw [not_or] at h
    obtain ⟨ha, hb⟩ := h
    have hn : n100 ≤ 3 := by omega
    have hn1 : n1 ≤ 3 := by omega
    have e1 : (400 * era + 100 * n100 + 4 * n4 + n1) / 4 =
        100 * era + 25 * n100 + n4 + n1 / 4 := by omega
    have e2 : (400 * era + 100 * n100 + 4 * n4 + n1) / 100 = 4 * era + n100 := by omega
    have e3 : (400 * era + 100 * n100 + 4 * n4 + n1) / 400 = era := by omega
    have e4 : (400 * era + 100 * n100 + 4 * n4 + n1 + 1) / 4 =
        100 * era + 25 * n100 + n4 + (n1 + 1) / 4 := by omega
    have e5 : (400 * era + 100 * n100 + 4 * n4 + n1 + 1) / 100 =
        4 * era + n100 + (4 * n4 + n1 + 1) / 100 := by omega
    have e6 : (400 * era + 100 * n100 + 4 * n4 + n1 + 1) / 400 =
        era + (100 * n100 + 4 * n4 + n1 + 1) / 400 := by omega
    have g1 : n1 / 4 = 0 := by omega
    have g2 : 0 ≤ (n1 + 1) / 4 ∧ (n1 + 1) / 4 ≤ 1 := by omega
    have g3 : (4 * n4 + n1 + 1) / 100 ≤ (n1 + 1) / 4 := by omega
    have g4 : 0 ≤ (4 * n4 + n1 + 1) / 100 := by omega
    have g5 : (100 * n100 + 4 * n4 + n1 + 1) / 400 ≤ (4 * n4 + n1 + 1) / 100 := by omega
    have g6 : 0 ≤ (100 * n100 + 4 * n4 + n1 + 1) / 400 := by omega
    omega

theorem marchOfZ_spec (z : Int) :
    dbMarch (marchOfZ z).1 + (marchOfZ z).2 = z ∧
    0 ≤ (marchOfZ z).2 ∧
    (marchOfZ z).2 ≤ 365 ∧
    z < dbMarch ((marchOfZ z).1 + 1) ∧
    ((marchOfZ z).2 = 365 → dbMarch ((marchOfZ z).1 + 1) = dbMarch (marchOfZ z).1 + 366) := by
  have hz : 146097 * (z / 146097) + z % 146097 = z := by omega
  have h := marchAux (z / 146097) (z % 146097) (z % 146097 / 36524) (z % 146097 % 36524)
    (z % 146097 % 36524 / 1461) (z % 146097 % 36524 % 1461)
    (z % 146097 % 36524 % 1461 / 365) (z % 146097 % 36524 % 1461 % 365)
    (by omega) (by omega) (by omega) (by omega) (by omega)
    (by omega) (by omega) (by omega) (by omega) (by omega) (by omega)
  rw [hz] at h
  simpa only [marchOfZ] using h
theorem isLeap_iff (y : Int) :
    isLeap y = true ↔ (y % 4 = 0 ∧ (y % 100 ≠ 0 ∨ y % 400 = 0)) := by
  simp [isLeap]

theorem isLeap_cases (y : Int) :
    (isLeap y = true ∧ y % 4 = 0 ∧ (y % 100 ≠ 0 ∨ y % 400 = 0)) ∨
    (isLeap y = false ∧ (y % 4 ≠ 0 ∨ (y % 100 = 0 ∧ y % 400 ≠ 0))) := by
  by_cases h : isLeap y = true
  · exact Or.inl ⟨h, (isLeap_iff y).mp h⟩
  · refine Or.inr ⟨by simpa using h, ?_⟩
    have h2 : ¬(y % 4 = 0 ∧ (y % 100 ≠ 0 ∨ y % 400 = 0)) := fun hc => h ((isLeap_iff y).mpr hc)
    by_cases h4 : y % 4 = 0
    · right
      refine ⟨?_, fun h400 => h2 ⟨h4, Or.inr h400⟩⟩
      by_cases h100 : y % 100 = 0
      · exact h100
      · exact absurd ⟨h4, Or.inl h100⟩ h2
    · exact Or.inl h4



theorem daysBeforeYear_eq (y : Int) : daysBeforeYear y = dbMarch (y - 1) := rfl

theorem divrel4m (y : Int) :
    (y % 4 = 0 ∧ (y - 1) / 4 = y / 4 - 1) ∨ (y % 4 ≠ 0 ∧ (y - 1) / 4 = y / 4) := by
  rcases Decidable.em (y % 4 = 0) with h | h
  · exact Or.inl ⟨h, by omega⟩
  · exact Or.inr ⟨h, by omega⟩

theorem divrel100m (y : Int) :
    (y % 100 = 0 ∧ (y - 1) / 100 = y / 100 - 1) ∨ (y % 100 ≠ 0 ∧ (y - 1) / 100 = y / 100) := by
  rcases Decidable.em (y % 100 = 0) with h | h
  · exact Or.inl ⟨h, by omega⟩
  · exact Or.inr ⟨h, by omega⟩

theorem divrel400m (y : Int) :
    (y % 400 = 0 ∧ (y - 1) / 400 = y / 400 - 1) ∨ (y % 400 ≠ 0 ∧ (y - 1) / 400 = y / 400) := by
  rcases Decidable.em (y % 400 = 0) with h | h
  · exact Or.inl ⟨h, by omega⟩
  · exact Or.inr ⟨h, by omega⟩

theorem dbMarch_pred (y : Int) :
    dbMarch y = dbMarch (y - 1) + 365 + (if isLeap y = true then 1 else 0) := by
  have d4 : y % 400 % 100 = y % 100 := Int.emod_emod_of_dvd y (by norm_num)
  have d5 : y % 100 % 4 = y % 4 := Int.emod_emod_of_dvd y (by norm_num)
  by_cases hl : isLeap y = true
  · have h2 := (isLeap_iff y).mp hl
    obtain ⟨h4, h2⟩ := h2
    rw [if_pos hl]
    simp only [dbMarch]
    have e1 : (y - 1) / 4 = y / 4 - 1 := by omega
    rcases h2 with h100 | h400
    · have c1 : y % 400 ≠ 0 := by omega
      have e2 : (y - 1) / 100 = y / 100 := by omega
      have e3 : (y - 1) / 400 = y / 400 := by omega
      omega
    · have c1 : y % 100 = 0 := by omega
      have e2 : (y - 1) / 100 = y / 100 - 1 := by omega
      have e3 : (y - 1) / 400 = y / 400 - 1 := by omega
      omega
  · have h2 : ¬(y % 4 = 0 ∧ (y % 100 ≠ 0 ∨ y % 400 = 0)) := fun hc => hl ((isLeap_iff y).mpr hc)
    have h3 : y % 4 ≠ 0 ∨ (y % 100 = 0 ∧ y % 400 ≠ 0) := by
      by_cases h4 : y % 4 = 0
      · by_cases h100 : y % 100 = 0
        · refine Or.inr ⟨h100, fun h400 => h2 ⟨h4, Or.inr h400⟩⟩
        · exact absurd ⟨h4, Or.inl h100⟩ h2
      · exact Or.inl h4
    rw [if_neg hl]
    simp only [dbMarch]
    rcases h3 with h3 | ⟨h3a, h3b⟩
    · have c1 : y % 100 ≠ 0 := by omega
      have c2 : y % 400 ≠ 0 := by omega
      have e1 : (y - 1) / 4 = y / 4 := by omega
      have e2 : (y - 1) / 100 = y / 100 := by omega
      have e3 : (y - 1) / 400 = y / 400 := by omega
      omega
    · have c3 : y % 4 = 0 := by omega
      have e1 : (y - 1) / 4 = y / 4 - 1 := by omega
      have e2 : (y - 1) / 100 = y / 100 - 1 := by omega
      have e3 : (y - 1) / 400 = y / 400 := by omega
      omega

theorem dbMarch_succ (y : Int) :
    dbMarch (y + 1) = dbMarch y + 365 + (if isLeap (y + 1) = true then 1 else 0) := by
  have h := dbMarch_pred (y + 1)
  have h2 : y + 1 - 1 = y := by ring
  rw [h2] at h
  exact h

theorem isLeap_one : isLeap 1 = false := by decide

theorem dbm_leap_split (y m : Int) (h : 2 < m) :
    daysBeforeMonth y m = daysBeforeMonth 1 m + (if isLeap y = true then 1 else 0) := by
  have h1 : isLeap 1 = false := by decide
  by_cases hl : isLeap y = true <;> simp [daysBeforeMonth, h, hl, h1]

theorem dbm_low (y m : Int) (h : m ≤ 2) :
    daysBeforeMonth y m = daysBeforeMonth 1 m := by
  have h2 : ¬(2 < m) := by omega
  simp [daysBeforeMonth, h2]

theorem toOrdinal_eq_march (y m : Int) (h1 : 3 ≤ m) (h2 : m ≤ 12) (d : Int) :
    toOrdinal y m d = dbMarch y + daysBeforeMonth 1 m - 365 + d := by
  rw [toOrdinal, daysBeforeYear_eq, dbm_leap_split y m (by omega), dbMarch_pred y]
  by_cases hl : isLeap y = true <;> simp [hl] <;> ring

theorem toOrdinal_eq_low (y m : Int) (h1 : m ≤ 2) (d : Int) :
    toOrdinal (y + 1) m d = dbMarch y + daysBeforeMonth 1 m + d := by
  rw [toOrdinal, daysBeforeYear_eq, dbm_low (y + 1) m h1]
  have h2 : y + 1 - 1 = y := by ring
  rw [h2]

set_option maxHeartbeats 2000000 in
theorem fromOrdinal_spec (n : Int) :
    1 ≤ monthOf n ∧ monthOf n ≤ 12 ∧ 1 ≤ dayOf n ∧
    dayOf n ≤ daysInMonth (yearOf n) (monthOf n) ∧
    toOrdinal (yearOf n) (monthOf n) (dayOf n) = n := by
  obtain ⟨y, doy, hmz⟩ : ∃ y doy, marchOfZ (n + 305) = (y, doy) := ⟨_, _, rfl⟩
  have spec := marchOfZ_spec (n + 305)
  rw [hmz] at spec
  dsimp only at spec
  obtain ⟨s1, s2, s3, s4, s5⟩ := spec
  have s5x : doy ≤ 364 ∨ (doy = 365 ∧ dbMarch (y + 1) = dbMarch y + 366) := by
    rcases Decidable.em (doy = 365) with hd | hd
    · exact Or.inr ⟨hd, s5 hd⟩
    · omega
  clear s5
  have hsucc := dbMarch_succ y
  simp only [yearOf, monthOf, dayOf, fromOrdinal, hmz]
  obtain ⟨mp, hmp⟩ : ∃ v, (5 * doy + 2) / 153 = v := ⟨_, rfl⟩
  rw [hmp]
  have hmpb : 0 ≤ mp ∧ mp ≤ 11 := by omega
  have h12 : mp = 0 ∨ mp = 1 ∨ mp = 2 ∨ mp = 3 ∨ mp = 4 ∨ mp = 5 ∨ mp = 6 ∨ mp = 7 ∨
      mp = 8 ∨ mp = 9 ∨ mp = 10 ∨ mp = 11 := by omega
  rcases h12 with h | h | h | h | h | h | h | h | h | h | h | h <;> subst h <;> norm_num
  · rw [toOrdinal_eq_march y 3 (by norm_num) (by norm_num)]
    norm_num [daysBeforeMonth, daysInMonth, isLeap_one]
    omega
  · rw [toOrdinal_eq_march y 4 (by norm_num) (by norm_num)]
    norm_num [daysBeforeMonth, daysInMonth, isLeap_one]
    omega
  · rw [toOrdinal_eq_march y 5 (by norm_num) (by norm_num)]
    norm_num [daysBeforeMonth, daysInMonth, isLeap_one]
    omega
  · rw [toOrdinal_eq_march y 6 (by norm_num) (by norm_num)]
    norm_num [daysBeforeMonth, daysInMonth, isLeap_one]
    omega
  · rw [toOrdinal_eq_march y 7 (by norm_num) (by norm_num)]
    norm_num [daysBeforeMonth, daysInMonth, isLeap_one]
    omega
  · rw [toOrdinal_eq_march y 8 (by norm_num) (by norm_num)]
    norm_num [daysBeforeMonth, daysInMonth, isLeap_one]
    omega
  · rw [toOrdinal_eq_march y 9 (by norm_num) (by norm_num)]
    norm_num [daysBeforeMonth, daysInMonth, isLeap_one]
    omega
  · rw [toOrdinal_eq_march y 10 (by norm_num) (by norm_num)]
    norm_num [daysBeforeMonth, daysInMonth, isLeap_one]
    omega
  · rw [toOrdinal_eq_march y 11 (by norm_num) (by norm_num)]
    norm_num [daysBeforeMonth, daysInMonth, isLeap_one]
    omega
  · rw [toOrdinal_eq_march y 12 (by norm_num) (by norm_num)]
    norm_num [daysBeforeMonth, daysInMonth, isLeap_one]
    omega
  · rw [toOrdinal_eq_low y 1 (by norm_num)]
    norm_num [daysBeforeMonth, daysInMonth, isLeap_one]
    omega
  · rw [toOrdinal_eq_low y 2 (by norm_num)]
    norm_num [daysBeforeMonth, daysInMonth, isLeap_one]
    rcases Decidable.em (isLeap (y + 1) = true) with hl | hl
    · rw [if_pos hl] at hsucc ⊢
      omega
    · rw [if_neg hl] at hsucc ⊢
      omega

theorem dbMarch_mono (a b : Int) (h : a ≤ b) : dbMarch a ≤ dbMarch b := by
  simp only [dbMarch]
  have e1 : a / 4 ≤ b / 4 := by omega
  have e2 : a / 100 ≤ b / 100 := by omega
  have e3 : a / 400 ≤ b / 400 := by omega
  have e4 : b / 100 - a / 100 ≤ b - a := by omega
  omega

theorem marchOfZ_unique (z y doy : Int) (h1 : dbMarch y + doy = z) (h2 : 0 ≤ doy)
    (h3 : z < dbMarch (y + 1)) : marchOfZ z = (y, doy) := by
  obtain ⟨y0, d0, hmz⟩ : ∃ a b, marchOfZ z = (a, b) := ⟨_, _, rfl⟩
  have spec := marchOfZ_spec z
  rw [hmz] at spec
  dsimp only at spec
  obtain ⟨s1, s2, s3, s4, s5⟩ := spec
  have hyy : y0 = y := by
    rcases lt_trichotomy y0 y with h | h | h
    · have := dbMarch_mono (y0 + 1) y (by omega)
      omega
    · exact h
    · have := dbMarch_mono (y + 1) y0 (by omega)
      omega
  subst hyy
  have hdd : d0 = doy := by omega
  rw [hmz, hdd]

theorem leapTerm_bounds (x : Int) :
    0 ≤ (if isLeap x = true then (1 : Int) else 0) ∧
    (if isLeap x = true then (1 : Int) else 0) ≤ 1 := by
  rcases Decidable.em (isLeap x = true) with h | h
  · rw [if_pos h]
    norm_num
  · rw [if_neg h]
    norm_num

theorem toOrdinal_eq_low2 (y m : Int) (h1 : m ≤ 2) (d : Int) :
    toOrdinal y m d = dbMarch (y - 1) + daysBeforeMonth 1 m + d := by
  have h := toOrdinal_eq_low (y - 1) m h1 d
  have h2 : y - 1 + 1 = y := by ring
  rw [h2] at h
  exact h

set_option maxHeartbeats 2000000 in
theorem fromOrdinal_toOrdinal (y m d : Int) (hm1 : 1 ≤ m) (hm2 : m ≤ 12)
    (hd1 : 1 ≤ d) (hd2 : d ≤ daysInMonth y m) :
    fromOrdinal (toOrdinal y m d) = (y, m, d) := by
  have h12 : m = 1 ∨ m = 2 ∨ m = 3 ∨ m = 4 ∨ m = 5 ∨ m = 6 ∨ m = 7 ∨ m = 8 ∨ m = 9 ∨
      m = 10 ∨ m = 11 ∨ m = 12 := by omega
  rcases h12 with h | h | h | h | h | h | h | h | h | h | h | h <;> subst h
  · -- m = 1
    have hd2x : d ≤ 31 := by
      rw [show daysInMonth y 1 = 31 from by norm_num [daysInMonth]] at hd2
      exact hd2
    have ht : toOrdinal y 1 d = dbMarch (y - 1) + d := by
      rw [toOrdinal_eq_low2 y 1 (by norm_num)]
      norm_num [daysBeforeMonth]
    have hL := leapTerm_bounds y
    have hp := dbMarch_pred y
    have hy1 : y - 1 + 1 = y := by ring
    have hbr : dbMarch (y - 1) + d + 305 < dbMarch (y - 1 + 1) := by
      rw [hy1]
      omega
    have hu : marchOfZ (dbMarch (y - 1) + d + 305) = (y - 1, d + 305) :=
      marchOfZ_unique _ _ _ (by ring) (by omega) hbr
    have hmp : (5 * (d + 305) + 2) / 153 = 10 := by omega
    rw [ht]
    simp only [fromOrdinal, hu]
    rw [hmp]
    norm_num
    try omega
  · -- m = 2
    have hd2x : d ≤ 29 := by
      rw [show daysInMonth y 2 = (if isLeap y = true then 29 else 28) from by
        norm_num [daysInMonth]] at hd2
      rcases Decidable.em (isLeap y = true) with hl | hl
      · rw [if_pos hl] at hd2
        omega
      · rw [if_neg hl] at hd2
        omega
    have ht : toOrdinal y 2 d = dbMarch (y - 1) + 31 + d := by
      rw [toOrdinal_eq_low2 y 2 (by norm_num)]
      norm_num [daysBeforeMonth]
    have hp := dbMarch_pred y
    have hy1 : y - 1 + 1 = y := by ring
    have hbr : dbMarch (y - 1) + 31 + d + 305 < dbMarch (y - 1 + 1) := by
      rw [hy1]
      rw [show daysInMonth y 2 = (if isLeap y = true then 29 else 28) from by
        norm_num [daysInMonth]] at hd2
      rcases Decidable.em (isLeap y = true) with hl | hl
      · rw [if_pos hl] at hd2 hp
        omega
      · rw [if_neg hl] at hd2 hp
        omega
    have hu : marchOfZ (dbMarch (y - 1) + 31 + d + 305) = (y - 1, d + 336) :=
      marchOfZ_unique _ _ _ (by ring) (by omega) hbr
    have hmp : (5 * (d + 336) + 2) / 153 = 11 := by omega
    rw [ht]
    simp only [fromOrdinal, hu]
    rw [hmp]
    norm_num
    try omega
  · -- m = 3
    have hd2x : d ≤ 31 := by
      rw [show daysInMonth y 3 = 31 from by norm_num [daysInMonth]] at hd2
      exact hd2
    have ht : toOrdinal y 3 d = dbMarch y - 306 + d := by
      rw [toOrdinal_eq_march y 3 (by norm_num) (by norm_num)]
      norm_num [daysBeforeMonth, isLeap_one]
      omega
    have hL := leapTerm_bounds (y + 1)
    have hs := dbMarch_succ y
    have hu : marchOfZ (dbMarch y - 306 + d + 305) = (y, d - 1) :=
      marchOfZ_unique _ _ _ (by ring) (by omega) (by omega)
    have hmp : (5 * (d - 1) + 2) / 153 = 0 := by omega
    rw [ht]
    simp only [fromOrdinal, hu]
    rw [hmp]
    norm_num
    try omega
  · -- m = 4
    have hd2x : d ≤ 30 := by
      rw [show daysInMonth y 4 = 30 from by norm_num [daysInMonth]] at hd2
      exact hd2
    have ht : toOrdinal y 4 d = dbMarch y - 275 + d := by
      rw [toOrdinal_eq_march y 4 (by norm_num) (by norm_num)]
      norm_num [daysBeforeMonth, isLeap_one]
      omega
    have hL := leapTerm_bounds (y + 1)
    have hs := dbMarch_succ y
    have hu : marchOfZ (dbMarch y - 275 + d + 305) = (y, d + 30) :=
      marchOfZ_unique _ _ _ (by ring) (by omega) (by omega)
    have hmp : (5 * (d + 30) + 2) / 153 = 1 := by omega
    rw [ht]
    simp only [fromOrdinal, hu]
    rw [hmp]
    norm_num
    try omega
  · -- m = 5
    have hd2x : d ≤ 31 := by
      rw [show daysInMonth y 5 = 31 from by norm_num [daysInMonth]] at hd2
      exact hd2
    have ht : toOrdinal y 5 d = dbMarch y - 245 + d := by
      rw [toOrdinal_eq_march y 5 (by norm_num) (by norm_num)]
      norm_num [daysBeforeMonth, isLeap_one]
      omega
    have hL := leapTerm_bounds (y + 1)
    have hs := dbMarch_succ y
    have hu : marchOfZ (dbMarch y - 245 + d + 305) = (y, d + 60) :=
      marchOfZ_unique _ _ _ (by ring) (by omega) (by omega)
    have hmp : (5 * (d + 60) + 2) / 153 = 2 := by omega
    rw [ht]
    simp only [fromOrdinal, hu]
    rw [hmp]
    norm_num
    try omega
  · -- m = 6
    have hd2x : d ≤ 30 := by
      rw [show daysInMonth y 6 = 30 from by norm_num [daysInMonth]] at hd2
      exact hd2
    have ht : toOrdinal y 6 d = dbMarch y - 214 + d := by
      rw [toOrdinal_eq_march y 6 (by norm_num) (by norm_num)]
      norm_num [daysBeforeMonth, isLeap_one]
      omega
    have hL := leapTerm_bounds (y + 1)
    have hs := dbMarch_succ y
    have hu : marchOfZ (dbMarch y - 214 + d + 305) = (y, d + 91) :=
      marchOfZ_unique _ _ _ (by ring) (by omega) (by omega)
    have hmp : (5 * (d + 91) + 2) / 153 = 3 := by omega
    rw [ht]
    simp only [fromOrdinal, hu]
    rw [hmp]
    norm_num
    try omega
  · -- m = 7
    have hd2x : d ≤ 31 := by
      rw [show daysInMonth y 7 = 31 from by norm_num [daysInMonth]] at hd2
      exact hd2
    have ht : toOrdinal y 7 d = dbMarch y - 184 + d := by
      rw [toOrdinal_eq_march y 7 (by norm_num) (by norm_num)]
      norm_num [daysBeforeMonth, isLeap_one]
      omega
    have hL := leapTerm_bounds (y + 1)
    have hs := dbMarch_succ y
    have hu : marchOfZ (dbMarch y - 184 + d + 305) = (y, d + 121) :=
      marchOfZ_unique _ _ _ (by ring) (by omega) (by omega)
    have hmp : (5 * (d + 121) + 2) / 153 = 4 := by omega
    rw [ht]
    simp only [fromOrdinal, hu]
    rw [hmp]
    norm_num
    try omega
  · -- m = 8
    have hd2x : d ≤ 31 := by
      rw [show daysInMonth y 8 = 31 from by norm_num [daysInMonth]] at hd2
      exact hd2
    have ht : toOrdinal y 8 d = dbMarch y - 153 + d := by
      rw [toOrdinal_eq_march y 8 (by norm_num) (by norm_num)]
      norm_num [daysBeforeMonth, isLeap_one]
      omega
    have hL := leapTerm_bounds (y + 1)
    have hs := dbMarch_succ y
    have hu : marchOfZ (dbMarch y - 153 + d + 305) = (y, d + 152) :=
      marchOfZ_unique _ _ _ (by ring) (by omega) (by omega)
    have hmp : (5 * (d + 152) + 2) / 153 = 5 := by omega
    rw [ht]
    simp only [fromOrdinal, hu]
    rw [hmp]
    norm_num
    try omega
  · -- m = 9
    have hd2x : d ≤ 30 := by
      rw [show daysInMonth y 9 = 30 from by norm_num [daysInMonth]] at hd2
      exact hd2
    have ht : toOrdinal y 9 d = dbMarch y - 122 + d := by
      rw [toOrdinal_eq_march y 9 (by norm_num) (by norm_num)]
      norm_num [daysBeforeMonth, isLeap_one]
      omega
    have hL := leapTerm_bounds (y + 1)
    have hs := dbMarch_succ y
    have hu : marchOfZ (dbMarch y - 122 + d + 305) = (y, d + 183) :=
      marchOfZ_unique _ _ _ (by ring) (by omega) (by omega)
    have hmp : (5 * (d + 183) + 2) / 153 = 6 := by omega
    rw [ht]
    simp only [fromOrdinal, hu]
    rw [hmp]
    norm_num
    try omega
  · -- m = 10
    have hd2x : d ≤ 31 := by
      rw [show daysInMonth y 10 = 31 from by norm_num [daysInMonth]] at hd2
      exact hd2
    have ht : toOrdinal y 10 d = dbMarch y - 92 + d := by
      rw [toOrdinal_eq_march y 10 (by norm_num) (by norm_num)]
      norm_num [daysBeforeMonth, isLeap_one]
      omega
    have hL := leapTerm_bounds (y + 1)
    have hs := dbMarch_succ y
    have hu : marchOfZ (dbMarch y - 92 + d + 305) = (y, d + 213) :=
      marchOfZ_unique _ _ _ (by ring) (by omega) (by omega)
    have hmp : (5 * (d + 213) + 2) / 153 = 7 := by omega
    rw [ht]
    simp only [fromOrdinal, hu]
    rw [hmp]
    norm_num
    try omega
  · -- m = 11
    have hd2x : d ≤ 30 := by
      rw [show daysInMonth y 11 = 30 from by norm_num [daysInMonth]] at hd2
      exact hd2
    have ht : toOrdinal y 11 d = dbMarch y - 61 + d := by
      rw [toOrdinal_eq_march y 11 (by norm_num) (by norm_num)]
      norm_num [daysBeforeMonth, isLeap_one]
      omega
    have hL := leapTerm_bounds (y + 1)
    have hs := dbMarch_succ y
    have hu : marchOfZ (dbMarch y - 61 + d + 305) = (y, d + 244) :=
      marchOfZ_unique _ _ _ (by ring) (by omega) (by omega)
    have hmp : (5 * (d + 244) + 2) / 153 = 8 := by omega
    rw [ht]
    simp only [fromOrdinal, hu]
    rw [hmp]
    norm_num
    try omega
  · -- m = 12
    have hd2x : d ≤ 31 := by
      rw [show daysInMonth y 12 = 31 from by norm_num [daysInMonth]] at hd2
      exact hd2
    have ht : toOrdinal y 12 d = dbMarch y - 31 + d := by
      rw [toOrdinal_eq_march y 12 (by norm_num) (by norm_num)]
      norm_num [daysBeforeMonth, isLeap_one]
      omega
    have hL := leapTerm_bounds (y + 1)
    have hs := dbMarch_succ y
    have hu : marchOfZ (dbMarch y - 31 + d + 305) = (y, d + 274) :=
      marchOfZ_unique _ _ _ (by ring) (by omega) (by omega)
    have hmp : (5 * (d + 274) + 2) / 153 = 9 := by omega
    rw [ht]
    simp only [fromOrdinal, hu]
    rw [hmp]
    norm_num
    try omega

theorem toOrdinal_11 (y : Int) : toOrdinal y 1 1 = dbMarch (y - 1) + 1 := by
  rw [toOrdinal_eq_low2 y 1 (by norm_num)]
  norm_num [daysBeforeMonth]

set_option maxHeartbeats 1000000 in
theorem ordinal_year_bracket (n : Int) :
    toOrdinal (yearOf n) 1 1 ≤ n ∧ n < toOrdinal (yearOf n + 1) 1 1 := by
  obtain ⟨hm1, hm2, hd1, hd2, heq⟩ := fromOrdinal_spec n
  rw [toOrdinal_11, toOrdinal_11]
  have hyy : yearOf n + 1 - 1 = yearOf n := by ring
  rw [hyy]
  have hp := dbMarch_pred (yearOf n)
  have hL := leapTerm_bounds (yearOf n)
  have h12 : monthOf n = 1 ∨ monthOf n = 2 ∨ monthOf n = 3 ∨ monthOf n = 4 ∨ monthOf n = 5 ∨
      monthOf n = 6 ∨ monthOf n = 7 ∨ monthOf n = 8 ∨ monthOf n = 9 ∨ monthOf n = 10 ∨
      monthOf n = 11 ∨ monthOf n = 12 := by omega
  rcases h12 with h | h | h | h | h | h | h | h | h | h | h | h
  · -- monthOf n = 1
    rw [h] at heq hd2
    rw [toOrdinal_eq_low2 (yearOf n) 1 (by norm_num)] at heq
    norm_num [daysBeforeMonth] at heq
    rw [show daysInMonth (yearOf n) 1 = 31 from by norm_num [daysInMonth]] at hd2
    omega
  · -- monthOf n = 2
    rw [h] at heq hd2
    rw [toOrdinal_eq_low2 (yearOf n) 2 (by norm_num)] at heq
    norm_num [daysBeforeMonth] at heq
    rw [show daysInMonth (yearOf n) 2 = (if isLeap (yearOf n) = true then 29 else 28) from by
      norm_num [daysInMonth]] at hd2
    rcases Decidable.em (isLeap (yearOf n) = true) with hl | hl
    · rw [if_pos hl] at hd2 hp
      omega
    · rw [if_neg hl] at hd2 hp
      omega
  · -- monthOf n = 3
    rw [h] at heq hd2
    rw [toOrdinal_eq_march (yearOf n) 3 (by norm_num) (by norm_num)] at heq
    norm_num [daysBeforeMonth, isLeap_one] at heq
    rw [show daysInMonth (yearOf n) 3 = 31 from by norm_num [daysInMonth]] at hd2
    omega
  · -- monthOf n = 4
    rw [h] at heq hd2
    rw [toOrdinal_eq_march (yearOf n) 4 (by norm_num) (by norm_num)] at heq
    norm_num [daysBeforeMonth, isLeap_one] at heq
    rw [show daysInMonth (yearOf n) 4 = 30 from by norm_num [daysInMonth]] at hd2
    omega
  · -- monthOf n = 5
    rw [h] at heq hd2
    rw [toOrdinal_eq_march (yearOf n) 5 (by norm_num) (by norm_num)] at heq
    norm_num [daysBeforeMonth, isLeap_one] at heq
    rw [show daysInMonth (yearOf n) 5 = 31 from by norm_num [daysInMonth]] at hd2
    omega
  · -- monthOf n = 6
    rw [h] at heq hd2
    rw [toOrdinal_eq_march (yearOf n) 6 (by norm_num) (by norm_num)] at heq
    norm_num [daysBeforeMonth, isLeap_one] at heq
    rw [show daysInMonth (yearOf n) 6 = 30 from by norm_num [daysInMonth]] at hd2
    omega
  · -- monthOf n = 7
    rw [h] at heq hd2
    rw [toOrdinal_eq_march (yearOf n) 7 (by norm_num) (by norm_num)] at heq
    norm_num [daysBeforeMonth, isLeap_one] at heq
    rw [show daysInMonth (yearOf n) 7 = 31 from by norm_num [daysInMonth]] at hd2
    omega
  · -- monthOf n = 8
    rw [h] at heq hd2
    rw [toOrdinal_eq_march (yearOf n) 8 (by norm_num) (by norm_num)] at heq
    norm_num [daysBeforeMonth, isLeap_one] at heq
    rw [show daysInMonth (yearOf n) 8 = 31 from by norm_num [daysInMonth]] at hd2
    omega
  · -- monthOf n = 9
    rw [h] at heq hd2
    rw [toOrdinal_eq_march (yearOf n) 9 (by norm_num) (by norm_num)] at heq
    norm_num [daysBeforeMonth, isLeap_one] at heq
    rw [show daysInMonth (yearOf n) 9 = 30 from by norm_num [daysInMonth]] at hd2
    omega
  · -- monthOf n = 10
    rw [h] at heq hd2
    rw [toOrdinal_eq_march (yearOf n) 10 (by norm_num) (by norm_num)] at heq
    norm_num [daysBeforeMonth, isLeap_one] at heq
    rw [show daysInMonth (yearOf n) 10 = 31 from by norm_num [daysInMonth]] at hd2
    omega
  · -- monthOf n = 11
    rw [h] at heq hd2
    rw [toOrdinal_eq_march (yearOf n) 11 (by norm_num) (by norm_num)] at heq
    norm_num [daysBeforeMonth, isLeap_one] at heq
    rw [show daysInMonth (yearOf n) 11 = 30 from by norm_num [daysInMonth]] at hd2
    omega
  · -- monthOf n = 12
    rw [h] at heq hd2
    rw [toOrdinal_eq_march (yearOf n) 12 (by norm_num) (by norm_num)] at heq
    norm_num [daysBeforeMonth, isLeap_one] at heq
    rw [show daysInMonth (yearOf n) 12 = 31 from by norm_num [daysInMonth]] at hd2
    omega

theorem monday_idem (n : Int) : monday (monday n) = monday n := by
  simp only [monday, weekday]
  omega

theorem monday_sub7 (n : Int) : monday (n - 7) = monday n - 7 := by
  simp only [monday, weekday]
  omega

theorem isoPair_monday (n : Int) : isoPair (monday n) = isoPair n := by
  simp only [isoPair]
  rw [monday_idem]

set_option maxHeartbeats 1000000 in
theorem mondayOfKey_isoPair (n : Int) :
    mondayOfKey (isoPair n).1 (isoPair n).2 = monday n := by
  obtain ⟨hlo, hhi⟩ := ordinal_year_bracket (monday n + 3)
  simp only [isoPair, mondayOfKey]
  obtain ⟨j, hj⟩ : ∃ v, toOrdinal (yearOf (monday n + 3)) 1 1 = v := ⟨_, rfl⟩
  rw [hj] at hlo ⊢
  simp only [weekday, monday]
  omega

theorem isoPair_sub7 (n : Int) : isoPair (n - 7) = isoPair (monday n - 7) := by
  have h : monday (n - 7) = monday n - 7 := monday_sub7 n
  calc isoPair (n - 7) = isoPair (monday (n - 7)) := (isoPair_monday _).symm
  _ = isoPair (monday n - 7) := by rw [h]

theorem predKey_week (n : Int) :
    predKey (toPeriodKey .WEEKLY n) = toPeriodKey .WEEKLY (n - 7) := by
  simp only [toPeriodKey, predKey]
  rw [mondayOfKey_isoPair, ← isoPair_sub7]

theorem weekKey_inRange (n : Int) :
    isoPair (mondayOfKey (isoPair n).1 (isoPair n).2) = isoPair n := by
  rw [mondayOfKey_isoPair, isoPair_monday]

theorem mondayOfKey_is_monday (y w : Int) (h : isoPair (mondayOfKey y w) = (y, w)) :
    monday (mondayOfKey y w) = mondayOfKey y w := by
  have h2 := mondayOfKey_isoPair (mondayOfKey y w)
  rw [h] at h2
  simpa using h2.symm

set_option maxHeartbeats 1000000 in
theorem monthPair_prevMonthEnd (n : Int) :
    monthPair (prevMonthEnd n) =
      (if monthOf n = 1 then yearOf n - 1 else yearOf n,
       if monthOf n = 1 then 12 else monthOf n - 1) := by
  obtain ⟨hm1, hm2, hd1, hd2, heq⟩ := fromOrdinal_spec n
  have h12 : monthOf n = 1 ∨ monthOf n = 2 ∨ monthOf n = 3 ∨ monthOf n = 4 ∨ monthOf n = 5 ∨
      monthOf n = 6 ∨ monthOf n = 7 ∨ monthOf n = 8 ∨ monthOf n = 9 ∨ monthOf n = 10 ∨
      monthOf n = 11 ∨ monthOf n = 12 := by omega
  rcases h12 with h | h | h | h | h | h | h | h | h | h | h | h
  · -- monthOf n = 1
    have ht : toOrdinal (yearOf n) 1 1 - 1 = toOrdinal (yearOf n - 1) 12 31 := by
      rw [toOrdinal_11, toOrdinal_eq_march (yearOf n - 1) 12 (by norm_num) (by norm_num)]
      norm_num [daysBeforeMonth, isLeap_one]
      omega
    have hr := fromOrdinal_toOrdinal (yearOf n - 1) 12 31 (by norm_num) (by norm_num)
      (by norm_num) (by norm_num [daysInMonth])
    have hpe : prevMonthEnd n = toOrdinal (yearOf n - 1) 12 31 := by
      simp only [prevMonthEnd]
      rw [h]
      exact ht
    rw [h]
    norm_num
    rw [hpe]
    simp only [monthPair, yearOf, monthOf] at hr ⊢
    simp [hr]
  · -- monthOf n = 2
    have ht : toOrdinal (yearOf n) 2 1 - 1 = toOrdinal (yearOf n) 1 31 := by
      rw [toOrdinal_eq_low2 (yearOf n) 2 (by norm_num), toOrdinal_eq_low2 (yearOf n) 1
        (by norm_num)]
      norm_num [daysBeforeMonth]
    have hr := fromOrdinal_toOrdinal (yearOf n) 1 31 (by norm_num) (by norm_num)
      (by norm_num) (by norm_num [daysInMonth])
    have hpe : prevMonthEnd n = toOrdinal (yearOf n) 1 31 := by
      simp only [prevMonthEnd]
      rw [h]
      exact ht
    rw [h]
    norm_num
    rw [hpe]
    simp only [monthPair, yearOf, monthOf] at hr ⊢
    simp [hr]
  · -- monthOf n = 3
    rcases Decidable.em (isLeap (yearOf n) = true) with hl | hl
    · have ht : toOrdinal (yearOf n) 3 1 - 1 = toOrdinal (yearOf n) 2 29 := by
        have hp := dbMarch_pred (yearOf n)
        rw [if_pos hl] at hp
        rw [toOrdinal_eq_march (yearOf n) 3 (by norm_num) (by norm_num),
          toOrdinal_eq_low2 (yearOf n) 2 (by norm_num),
          show daysBeforeMonth 1 3 = 59 from by norm_num [daysBeforeMonth, isLeap_one],
          show daysBeforeMonth 1 2 = 31 from by norm_num [daysBeforeMonth]]
        omega
      have hr := fromOrdinal_toOrdinal (yearOf n) 2 29 (by norm_num) (by norm_num)
        (by norm_num) (by norm_num [daysInMonth, hl])
      have hpe : prevMonthEnd n = toOrdinal (yearOf n) 2 29 := by
        simp only [prevMonthEnd]
        rw [h]
        exact ht
      rw [h]
      norm_num
      rw [hpe]
      simp only [monthPair, yearOf, monthOf] at hr ⊢
      simp [hr]
    · have ht : toOrdinal (yearOf n) 3 1 - 1 = toOrdinal (yearOf n) 2 28 := by
        have hp := dbMarch_pred (yearOf n)
        rw [if_neg hl] at hp
        rw [toOrdinal_eq_march (yearOf n) 3 (by norm_num) (by norm_num),
          toOrdinal_eq_low2 (yearOf n) 2 (by norm_num),
          show daysBeforeMonth 1 3 = 59 from by norm_num [daysBeforeMonth, isLeap_one],
          show daysBeforeMonth 1 2 = 31 from by norm_num [daysBeforeMonth]]
        omega
      have hr := fromOrdinal_toOrdinal (yearOf n) 2 28 (by norm_num) (by norm_num)
        (by norm_num) (by norm_num [daysInMonth, hl])
      have hpe : prevMonthEnd n = toOrdinal (yearOf n) 2 28 := by
        simp only [prevMonthEnd]
        rw [h]
        exact ht
      rw [h]
      norm_num
      rw [hpe]
      simp only [monthPair, yearOf, monthOf] at hr ⊢
      simp [hr]
  · -- monthOf n = 4
    have ht : toOrdinal (yearOf n) 4 1 - 1 = toOrdinal (yearOf n) 3 31 := by
      rw [toOrdinal_eq_march (yearOf n) 4 (by norm_num) (by norm_num),
        toOrdinal_eq_march (yearOf n) 3 (by norm_num) (by norm_num)]
      norm_num [daysBeforeMonth, isLeap_one]
      omega
    have hr := fromOrdinal_toOrdinal (yearOf n) 3 31 (by norm_num) (by norm_num)
      (by norm_num) (by norm_num [daysInMonth])
    have hpe : prevMonthEnd n = toOrdinal (yearOf n) 3 31 := by
      simp only [prevMonthEnd]
      rw [h]
      exact ht
    rw [h]
    norm_num
    rw [hpe]
    simp only [monthPair, yearOf, monthOf] at hr ⊢
    simp [hr]
  · -- monthOf n = 5
    have ht : toOrdinal (yearOf n) 5 1 - 1 = toOrdinal (yearOf n) 4 30 := by
      rw [toOrdinal_eq_march (yearOf n) 5 (by norm_num) (by norm_num),
        toOrdinal_eq_march (yearOf n) 4 (by norm_num) (by norm_num)]
      norm_num [daysBeforeMonth, isLeap_one]
      omega
    have hr := fromOrdinal_toOrdinal (yearOf n) 4 30 (by norm_num) (by norm_num)
      (by norm_num) (by norm_num [daysInMonth])
    have hpe : prevMonthEnd n = toOrdinal (yearOf n) 4 30 := by
      simp only [prevMonthEnd]
      rw [h]
      exact ht
    rw [h]
    norm_num
    rw [hpe]
    simp only [monthPair, yearOf, monthOf] at hr ⊢
    simp [hr]
  · -- monthOf n = 6
    have ht : toOrdinal (yearOf n) 6 1 - 1 = toOrdinal (yearOf n) 5 31 := by
      rw [toOrdinal_eq_march (yearOf n) 6 (by norm_num) (by norm_num),
        toOrdinal_eq_march (yearOf n) 5 (by norm_num) (by norm_num)]
      norm_num [daysBeforeMonth, isLeap_one]
      omega
    have hr := fromOrdinal_toOrdinal (yearOf n) 5 31 (by norm_num) (by norm_num)
      (by norm_num) (by norm_num [daysInMonth])
    have hpe : prevMonthEnd n = toOrdinal (yearOf n) 5 31 := by
      simp only [prevMonthEnd]
      rw [h]
      exact ht
    rw [h]
    norm_num
    rw [hpe]
    simp only [monthPair, yearOf, monthOf] at hr ⊢
    simp [hr]
  · -- monthOf n = 7
    have ht : toOrdinal (yearOf n) 7 1 - 1 = toOrdinal (yearOf n) 6 30 := by
      rw [toOrdinal_eq_march (yearOf n) 7 (by norm_num) (by norm_num),
        toOrdinal_eq_march (yearOf n) 6 (by norm_num) (by norm_num)]
      norm_num [daysBeforeMonth, isLeap_one]
      omega
    have hr := fromOrdinal_toOrdinal (yearOf n) 6 30 (by norm_num) (by norm_num)
      (by norm_num) (by norm_num [daysInMonth])
    have hpe : prevMonthEnd n = toOrdinal (yearOf n) 6 30 := by
      simp only [prevMonthEnd]
      rw [h]
      exact ht
    rw [h]
    norm_num
    rw [hpe]
    simp only [monthPair, yearOf, monthOf] at hr ⊢
    simp [hr]
  · -- monthOf n = 8
    have ht : toOrdinal (yearOf n) 8 1 - 1 = toOrdinal (yearOf n) 7 31 := by
      rw [toOrdinal_eq_march (yearOf n) 8 (by norm_num) (by norm_num),
        toOrdinal_eq_march (yearOf n) 7 (by norm_num) (by norm_num)]
      norm_num [daysBeforeMonth, isLeap_one]
      omega
    have hr := fromOrdinal_toOrdinal (yearOf n) 7 31 (by norm_num) (by norm_num)
      (by norm_num) (by norm_num [daysInMonth])
    have hpe : prevMonthEnd n = toOrdinal (yearOf n) 7 31 := by
      simp only [prevMonthEnd]
      rw [h]
      exact ht
    rw [h]
    norm_num
    rw [hpe]
    simp only [monthPair, yearOf, monthOf] at hr ⊢
    simp [hr]
  · -- monthOf n = 9
    have ht : toOrdinal (yearOf n) 9 1 - 1 = toOrdinal (yearOf n) 8 31 := by
      rw [toOrdinal_eq_march (yearOf n) 9 (by norm_num) (by norm_num),
        toOrdinal_eq_march (yearOf n) 8 (by norm_num) (by norm_num)]
      norm_num [daysBeforeMonth, isLeap_one]
      omega
    have hr := fromOrdinal_toOrdinal (yearOf n) 8 31 (by norm_num) (by norm_num)
      (by norm_num) (by norm_num [daysInMonth])
    have hpe : prevMonthEnd n = toOrdinal (yearOf n) 8 31 := by
      simp only [prevMonthEnd]
      rw [h]
      exact ht
    rw [h]
    norm_num
    rw [hpe]
    simp only [monthPair, yearOf, monthOf] at hr ⊢
    simp [hr]
  · -- monthOf n = 10
    have ht : toOrdinal (yearOf n) 10 1 - 1 = toOrdinal (yearOf n) 9 30 := by
      rw [toOrdinal_eq_march (yearOf n) 10 (by norm_num) (by norm_num),
        toOrdinal_eq_march (yearOf n) 9 (by norm_num) (by norm_num)]
      norm_num [daysBeforeMonth, isLeap_one]
      omega
    have hr := fromOrdinal_toOrdinal (yearOf n) 9 30 (by norm_num) (by norm_num)
      (by norm_num) (by norm_num [daysInMonth])
    have hpe : prevMonthEnd n = toOrdinal (yearOf n) 9 30 := by
      simp only [prevMonthEnd]
      rw [h]
      exact ht
    rw [h]
    norm_num
    rw [hpe]
    simp only [monthPair, yearOf, monthOf] at hr ⊢
    simp [hr]
  · -- monthOf n = 11
    have ht : toOrdinal (yearOf n) 11 1 - 1 = toOrdinal (yearOf n) 10 31 := by
      rw [toOrdinal_eq_march (yearOf n) 11 (by norm_num) (by norm_num),
        toOrdinal_eq_march (yearOf n) 10 (by norm_num) (by norm_num)]
      norm_num [daysBeforeMonth, isLeap_one]
      omega
    have hr := fromOrdinal_toOrdinal (yearOf n) 10 31 (by norm_num) (by norm_num)
      (by norm_num) (by norm_num [daysInMonth])
    have hpe : prevMonthEnd n = toOrdinal (yearOf n) 10 31 := by
      simp only [prevMonthEnd]
      rw [h]
      exact ht
    rw [h]
    norm_num
    rw [hpe]
    simp only [monthPair, yearOf, monthOf] at hr ⊢
    simp [hr]
  · -- monthOf n = 12
    have ht : toOrdinal (yearOf n) 12 1 - 1 = toOrdinal (yearOf n) 11 30 := by
      rw [toOrdinal_eq_march (yearOf n) 12 (by norm_num) (by norm_num),
        toOrdinal_eq_march (yearOf n) 11 (by norm_num) (by norm_num)]
      norm_num [daysBeforeMonth, isLeap_one]
      omega
    have hr := fromOrdinal_toOrdinal (yearOf n) 11 30 (by norm_num) (by norm_num)
      (by norm_num) (by norm_num [daysInMonth])
    have hpe : prevMonthEnd n = toOrdinal (yearOf n) 11 30 := by
      simp only [prevMonthEnd]
      rw [h]
      exact ht
    rw [h]
    norm_num
    rw [hpe]
    simp only [monthPair, yearOf, monthOf] at hr ⊢
    simp [hr]

theorem dedup_length_map {α β : Type} [DecidableEq α] [DecidableEq β] (f : α → β)
    (hf : ∀ a b, f a = f b → a = b) (l : List α) :
    (l.map f).dedup.length = l.dedup.length := by
  induction l with
  | nil => rfl
  | cons a l ih =>
    by_cases h : a ∈ l
    · rw [List.map_cons, List.dedup_cons_of_mem (List.mem_map_of_mem f h),
        List.dedup_cons_of_mem h, ih]
    · have h2 : f a ∉ l.map f := by
        intro hc
        obtain ⟨b, hb, hfb⟩ := List.mem_map.mp hc
        exact h (hf b a hfb ▸ hb)
      rw [List.map_cons, List.dedup_cons_of_not_mem h2, List.dedup_cons_of_not_mem h,
        List.length_cons, List.length_cons, ih]

theorem streakLoop_eq_chainLen (present : Int → Prop) [DecidablePred present]
    (stepB : Int → Int) (keys : List PeriodKey) (p : PVal)
    (hpres : ∀ x, present x ↔ toPeriodKey p x ∈ keys)
    (hstep : ∀ x, toPeriodKey p (stepB x) = predKey (toPeriodKey p x)) :
    ∀ fuel d, streakLoop present stepB fuel d = chainLen keys fuel (toPeriodKey p d) := by
  intro fuel
  induction fuel with
  | zero => intro d; rfl
  | succ fuel ih =>
    intro d
    simp only [streakLoop, chainLen]
    by_cases h : present d
    · rw [if_pos h, if_pos ((hpres d).mp h), ih (stepB d), hstep]
    · rw [if_neg h, if_neg (fun hc => h ((hpres d).mpr hc))]

theorem chainLen_le (keys : List PeriodKey) : ∀ fuel k, chainLen keys fuel k ≤ fuel := by
  intro fuel
  induction fuel with
  | zero => intro k; exact Nat.le_refl 0
  | succ fuel ih =>
    intro k
    simp only [chainLen]
    by_cases h : k ∈ keys
    · rw [if_pos h]
      exact Nat.succ_le_succ (ih (predKey k))
    · rw [if_neg h]
      exact Nat.zero_le _

theorem chainLen_mem (keys : List PeriodKey) :
    ∀ fuel k i, i < chainLen keys fuel k → predKey^[i] k ∈ keys := by
  intro fuel
  induction fuel with
  | zero => intro k i h; simp [chainLen] at h
  | succ fuel ih =>
    intro k i h
    simp only [chainLen] at h
    by_cases hk : k ∈ keys
    · rw [if_pos hk] at h
      match i with
      | 0 => simpa using hk
      | j + 1 =>
        rw [Function.iterate_succ_apply]
        exact ih (predKey k) j (by omega)
    · rw [if_neg hk] at h
      omega

theorem chainLen_stable (keys : List PeriodKey) :
    ∀ fuel k, chainLen keys fuel k < fuel →
      ∀ g, fuel ≤ g → chainLen keys g k = chainLen keys fuel k := by
  intro fuel
  induction fuel with
  | zero => intro k h; omega
  | succ fuel ih =>
    intro k h g hg
    match g, hg with
    | g + 1, hg =>
      simp only [chainLen] at h ⊢
      by_cases hk : k ∈ keys
      · rw [if_pos hk] at h
        rw [if_pos hk, if_pos hk, ih (predKey k) (by omega) g (by omega)]
      · rw [if_neg hk, if_neg hk]

theorem chainLen_bound (keys : List PeriodKey) (fuel : Nat) (k : PeriodKey)
    (hdist : ∀ i j : Nat, i < j → j < chainLen keys fuel k →
      predKey^[i] k ≠ predKey^[j] k) :
    chainLen keys fuel k ≤ keys.dedup.length := by
  set n := chainLen keys fuel k with hn
  have hsub : ((List.range n).map (fun i => predKey^[i] k)) ⊆ keys.dedup := by
    intro x hx
    obtain ⟨i, hi, hix⟩ := List.mem_map.mp hx
    rw [List.mem_dedup, ← hix]
    exact chainLen_mem keys fuel k i (by simpa using hi)
  have hnodup : ((List.range n).map (fun i => predKey^[i] k)).Nodup := by
    refine List.Nodup.map_on ?_ (List.nodup_range n)
    intro i hi j hj hij
    by_contra hne
    rcases Nat.lt_or_ge i j with h | h
    · exact hdist i j h (by simpa using hj) hij
    · have h2 : j < i := by omega
      exact hdist j i h2 (by simpa using hi) hij.symm
  have := List.Subperm.length_le (hnodup.subperm hsub)
  simpa using this

theorem predKey_month (n : Int) :
    predKey (toPeriodKey .MONTHLY n) = toPeriodKey .MONTHLY (prevMonthEnd n) := by
  have h := monthPair_prevMonthEnd n
  simp only [monthPair, Prod.mk.injEq] at h
  obtain ⟨h1, h2⟩ := h
  simp only [toPeriodKey, predKey]
  rcases Decidable.em (monthOf n = 1) with hm | hm
  · rw [if_pos hm] at h1 h2
    rw [if_pos hm, h1, h2]
  · rw [if_neg hm] at h1 h2
    rw [if_neg hm, h1, h2]

theorem monthIdx_prevMonthEnd (n : Int) :
    12 * yearOf (prevMonthEnd n) + monthOf (prevMonthEnd n) =
      12 * yearOf n + monthOf n - 1 := by
  obtain ⟨hm1, hm2, -, -, -⟩ := fromOrdinal_spec n
  have h := monthPair_prevMonthEnd n
  simp only [monthPair, Prod.mk.injEq] at h
  obtain ⟨h1, h2⟩ := h
  rcases Decidable.em (monthOf n = 1) with hm | hm
  · rw [if_pos hm] at h1 h2
    rw [h1, h2]
    omega
  · rw [if_neg hm] at h1 h2
    rw [h1, h2]
    omega

theorem predIter_day (t : Int) (i : Nat) :
    predKey^[i] (toPeriodKey .DAILY t) = toPeriodKey .DAILY (t - i) := by
  induction i generalizing t with
  | zero => simp [toPeriodKey]
  | succ i ih =>
    rw [Function.iterate_succ_apply,
      show predKey (toPeriodKey .DAILY t) = toPeriodKey .DAILY (t - 1) from rfl, ih]
    simp only [toPeriodKey, PeriodKey.day.injEq]
    push_cast
    ring

theorem predIter_week (t : Int) (i : Nat) :
    predKey^[i] (toPeriodKey .WEEKLY t) = toPeriodKey .WEEKLY (t - 7 * i) := by
  induction i generalizing t with
  | zero => simp [toPeriodKey]
  | succ i ih =>
    rw [Function.iterate_succ_apply, predKey_week, ih]
    have h : t - 7 - 7 * (i : Int) = t - 7 * ((i : Nat) + 1 : Nat) := by
      push_cast
      ring
    rw [h]

theorem predIter_month (t : Int) (i : Nat) :
    predKey^[i] (toPeriodKey .MONTHLY t) = toPeriodKey .MONTHLY (prevMonthEnd^[i] t) := by
  induction i generalizing t with
  | zero => rfl
  | succ i ih =>
    rw [Function.iterate_succ_apply, predKey_month, ih, ← Function.iterate_succ_apply]

theorem monday_shift (t : Int) (i : Nat) : monday (t - 7 * i) = monday t - 7 * i := by
  simp only [monday, weekday]
  omega

theorem monthIdx_iter (t : Int) (i : Nat) :
    12 * yearOf (prevMonthEnd^[i] t) + monthOf (prevMonthEnd^[i] t) =
      12 * yearOf t + monthOf t - i := by
  induction i generalizing t with
  | zero => simp
  | succ i ih =>
    rw [Function.iterate_succ_apply, ih (prevMonthEnd t), monthIdx_prevMonthEnd]
    push_cast
    ring

theorem distinct_day (t : Int) (i j : Nat) (hij : i < j) :
    predKey^[i] (toPeriodKey .DAILY t) ≠ predKey^[j] (toPeriodKey .DAILY t) := by
  rw [predIter_day, predIter_day]
  intro hc
  simp only [toPeriodKey, PeriodKey.day.injEq] at hc
  omega

theorem distinct_week (t : Int) (i j : Nat) (hij : i < j) :
    predKey^[i] (toPeriodKey .WEEKLY t) ≠ predKey^[j] (toPeriodKey .WEEKLY t) := by
  rw [predIter_week, predIter_week]
  intro hc
  have h1 := congrArg keyIdx hc
  simp only [toPeriodKey, keyIdx] at h1
  rw [mondayOfKey_isoPair, mondayOfKey_isoPair, monday_shift, monday_shift] at h1
  omega

theorem distinct_month (t : Int) (i j : Nat) (hij : i < j) :
    predKey^[i] (toPeriodKey .MONTHLY t) ≠ predKey^[j] (toPeriodKey .MONTHLY t) := by
  rw [predIter_month, predIter_month]
  intro hc
  have h1 := congrArg keyIdx hc
  simp only [toPeriodKey, keyIdx] at h1
  rw [monthIdx_iter, monthIdx_iter] at h1
  omega

theorem mem_keysOf_daily (c : List HabitCompletion) (x : Int) :
    x ∈ c.map (fun cc => cc.completed_at) ↔ toPeriodKey .DAILY x ∈ keysOf c .DAILY := by
  simp only [keysOf, toPeriodKey, List.mem_map, PeriodKey.day.injEq]

theorem mem_keysOf_weekly (c : List HabitCompletion) (x : Int) :
    isoPair x ∈ c.map (fun cc => isoPair cc.completed_at) ↔
      toPeriodKey .WEEKLY x ∈ keysOf c .WEEKLY := by
  simp only [keysOf, toPeriodKey, List.mem_map, PeriodKey.week.injEq]
  constructor
  · rintro ⟨cc, hcc, h⟩
    exact ⟨cc, hcc, congrArg Prod.fst h, congrArg Prod.snd h⟩
  · rintro ⟨cc, hcc, h1, h2⟩
    exact ⟨cc, hcc, Prod.ext_iff.mpr ⟨h1, h2⟩⟩

theorem mem_keysOf_monthly (c : List HabitCompletion) (x : Int) :
    monthPair x ∈ c.map (fun cc => monthPair cc.completed_at) ↔
      toPeriodKey .MONTHLY x ∈ keysOf c .MONTHLY := by
  simp only [keysOf, toPeriodKey, monthPair, List.mem_map, PeriodKey.month.injEq]
  constructor
  · rintro ⟨cc, hcc, h⟩
    rw [Prod.mk.injEq] at h
    exact ⟨cc, hcc, h.1, h.2⟩
  · rintro ⟨cc, hcc, h1, h2⟩
    refine ⟨cc, hcc, ?_⟩
    rw [Prod.mk.injEq]
    exact ⟨h1, h2⟩

theorem keysOf_dedup_daily (c : List HabitCompletion) :
    (keysOf c .DAILY).dedup.length = (c.map (fun cc => cc.completed_at)).dedup.length := by
  have h : keysOf c .DAILY = (c.map (fun cc => cc.completed_at)).map PeriodKey.day := by
    rw [List.map_map]
    rfl
  rw [h, dedup_length_map PeriodKey.day (fun a b hab => by injection hab)]

theorem keysOf_dedup_weekly (c : List HabitCompletion) :
    (keysOf c .WEEKLY).dedup.length =
      (c.map (fun cc => isoPair cc.completed_at)).dedup.length := by
  have h : keysOf c .WEEKLY = (c.map (fun cc => isoPair cc.completed_at)).map
      (fun pr => PeriodKey.week pr.1 pr.2) := by
    rw [List.map_map]
    rfl
  rw [h, dedup_length_map _ (fun a b hab => by
    injection hab with h1 h2
    exact Prod.ext_iff.mpr ⟨h1, h2⟩)]

theorem keysOf_dedup_monthly (c : List HabitCompletion) :
    (keysOf c .MONTHLY).dedup.length =
      (c.map (fun cc => monthPair cc.completed_at)).dedup.length := by
  have h : keysOf c .MONTHLY = (c.map (fun cc => monthPair cc.completed_at)).map
      (fun pr => PeriodKey.month pr.1 pr.2) := by
    rw [List.map_map]
    rfl
  rw [h, dedup_length_map _ (fun a b hab => by
    injection hab with h1 h2
    exact Prod.ext_iff.mpr ⟨h1, h2⟩)]

set_option maxHeartbeats 1000000 in
theorem calculate_streak_eq_ongoingSpec (c : List HabitCompletion) (p : PVal) (now : Int)
    (hp : p ≠ PVal.OTHER) :
    calculate_streak c p now = .ok (ongoingSpec c p now) := by
  by_cases hc : c = []
  · subst hc
    cases p
    all_goals first
    | exact absurd rfl hp
    | simp [calculate_streak, ongoingSpec, keysOf, chainLen]
  · cases p
    ·
      simp only [calculate_streak, ongoingSpec, if_neg hc]
      have hpres : ∀ x, x ∈ c.map (fun cc => cc.completed_at) ↔
          toPeriodKey .DAILY x ∈ keysOf c .DAILY := mem_keysOf_daily c
      have hstep : ∀ x : Int, toPeriodKey .DAILY (x - 1) = predKey (toPeriodKey .DAILY x) :=
        fun x => rfl
      have hloop := streakLoop_eq_chainLen (fun d => d ∈ c.map (fun cc => cc.completed_at))
        (fun d => d - 1) (keysOf c .DAILY) .DAILY hpres hstep
      have hfuel := keysOf_dedup_daily c
      by_cases h1 : now ∈ c.map (fun cc => cc.completed_at)
      · rw [if_pos h1, if_pos ((hpres now).mp h1), hloop, hfuel]
      · rw [if_neg h1, if_neg (fun hk => h1 ((hpres now).mpr hk))]
        by_cases h2 : now - 1 ∈ c.map (fun cc => cc.completed_at)
        · have hk2 : predKey (toPeriodKey .DAILY now) ∈ keysOf c .DAILY := by
            rw [← hstep now]
            exact (hpres (now - 1)).mp h2
          rw [if_pos h2, if_pos hk2, hloop, ← hstep now, hfuel]
        · have hk2 : predKey (toPeriodKey .DAILY now) ∉ keysOf c .DAILY := by
            rw [← hstep now]
            exact fun hk => h2 ((hpres (now - 1)).mpr hk)
          rw [if_neg h2, if_neg hk2]
    ·
      simp only [calculate_streak, ongoingSpec, if_neg hc]
      have hpres : ∀ x, isoPair x ∈ c.map (fun cc => isoPair cc.completed_at) ↔
          toPeriodKey .WEEKLY x ∈ keysOf c .WEEKLY := mem_keysOf_weekly c
      have hstep : ∀ x : Int, toPeriodKey .WEEKLY (x - 7) = predKey (toPeriodKey .WEEKLY x) :=
        fun x => (predKey_week x).symm
      have hloop := streakLoop_eq_chainLen
        (fun d => isoPair d ∈ c.map (fun cc => isoPair cc.completed_at))
        (fun d => d - 7) (keysOf c .WEEKLY) .WEEKLY hpres hstep
      have hfuel := keysOf_dedup_weekly c
      by_cases h1 : isoPair now ∈ c.map (fun cc => isoPair cc.completed_at)
      · rw [if_pos h1, if_pos ((hpres now).mp h1), hloop, hfuel]
      · rw [if_neg h1, if_neg (fun hk => h1 ((hpres now).mpr hk))]
        by_cases h2 : isoPair (now - 7) ∈ c.map (fun cc => isoPair cc.completed_at)
        · have hk2 : predKey (toPeriodKey .WEEKLY now) ∈ keysOf c .WEEKLY := by
            rw [← hstep now]
            exact (hpres (now - 7)).mp h2
          rw [if_pos h2, if_pos hk2, hloop, ← hstep now, hfuel]
        · have hk2 : predKey (toPeriodKey .WEEKLY now) ∉ keysOf c .WEEKLY := by
            rw [← hstep now]
            exact fun hk => h2 ((hpres (now - 7)).mpr hk)
          rw [if_neg h2, if_neg hk2]
    ·
      simp only [calculate_streak, ongoingSpec, if_neg hc]
      have hpres : ∀ x, monthPair x ∈ c.map (fun cc => monthPair cc.completed_at) ↔
          toPeriodKey .MONTHLY x ∈ keysOf c .MONTHLY := mem_keysOf_monthly c
      have hstep : ∀ x : Int,
          toPeriodKey .MONTHLY (prevMonthEnd x) = predKey (toPeriodKey .MONTHLY x) :=
        fun x => (predKey_month x).symm
      have hloop := streakLoop_eq_chainLen
        (fun d => monthPair d ∈ c.map (fun cc => monthPair cc.completed_at))
        prevMonthEnd (keysOf c .MONTHLY) .MONTHLY hpres hstep
      have hfuel := keysOf_dedup_monthly c
      by_cases h1 : monthPair now ∈ c.map (fun cc => monthPair cc.completed_at)
      · rw [if_pos h1, if_pos ((hpres now).mp h1), hloop, hfuel]
      · rw [if_neg h1, if_neg (fun hk => h1 ((hpres now).mpr hk))]
        by_cases h2 : monthPair (prevMonthEnd now) ∈ c.map (fun cc => monthPair cc.completed_at)
        · have hk2 : predKey (toPeriodKey .MONTHLY now) ∈ keysOf c .MONTHLY := by
            rw [← hstep now]
            exact (hpres (prevMonthEnd now)).mp h2
          rw [if_pos h2, if_pos hk2, hloop, ← hstep now, hfuel]
        · have hk2 : predKey (toPeriodKey .MONTHLY now) ∉ keysOf c .MONTHLY := by
            rw [← hstep now]
            exact fun hk => h2 ((hpres (prevMonthEnd now)).mpr hk)
          rw [if_neg h2, if_neg hk2]
    · exact absurd rfl hp

theorem chainLen_stop (keys : List PeriodKey) :
    ∀ fuel k, chainLen keys fuel k < fuel → predKey^[chainLen keys fuel k] k ∉ keys := by
  intro fuel
  induction fuel with
  | zero => intro k h; omega
  | succ fuel ih =>
    intro k h
    simp only [chainLen] at h ⊢
    by_cases hk : k ∈ keys
    · rw [if_pos hk] at h ⊢
      rw [Function.iterate_succ_apply]
      exact ih (predKey k) (by omega)
    · rw [if_neg hk]
      simpa using hk

theorem chainLen_eq_of_run (keys : List PeriodKey) :
    ∀ (n : Nat) (fuel : Nat) (k : PeriodKey), n < fuel →
      (∀ i, i < n → predKey^[i] k ∈ keys) → predKey^[n] k ∉ keys →
      chainLen keys fuel k = n := by
  intro n
  induction n with
  | zero =>
    intro fuel k hf hmem hstop
    match fuel, hf with
    | fuel + 1, _ =>
      simp only [chainLen]
      rw [if_neg (by simpa using hstop)]
  | succ n ih =>
    intro fuel k hf hmem hstop
    match fuel, hf with
    | fuel + 1, hf =>
      simp only [chainLen]
      rw [if_pos (by simpa using hmem 0 (by omega))]
      have h2 : chainLen keys fuel (predKey k) = n := by
        refine ih fuel (predKey k) (by omega) ?_ ?_
        · intro i hi
          rw [← Function.iterate_succ_apply]
          exact hmem (i + 1) (by omega)
        · rw [← Function.iterate_succ_apply]
          exact hstop
      omega

theorem scanLoop_other (rest : List Int) :
    ∀ st : ScanState, st.curStreak = 1 → st.maxStreak = 1 →
      (scanLoop .OTHER st rest).curStreak = 1 ∧ (scanLoop .OTHER st rest).maxStreak = 1 := by
  induction rest with
  | nil => intro st h1 h2; exact ⟨h1, h2⟩
  | cons d rest ih =>
    intro st h1 h2
    simp only [scanLoop]
    rw [if_neg (by simp [isConsecutive])]
    have hcond : ¬(st.curStreak > st.maxStreak) := by omega
    rw [if_neg hcond]
    exact ih _ rfl h2

theorem sortedUniqueDates_ne_nil (c : List HabitCompletion) (hc : c ≠ []) :
    sortedUniqueDates c ≠ [] := by
  simp only [sortedUniqueDates]
  intro h
  have h2 := (List.perm_insertionSort (fun a b : Int => a ≤ b)
    (c.map (fun cc => cc.completed_at)).dedup).length_eq
  rw [h] at h2
  simp only [List.length_nil] at h2
  have h3 : (c.map (fun cc => cc.completed_at)).dedup = [] :=
    List.eq_nil_of_length_eq_zero h2.symm
  rw [List.dedup_eq_nil] at h3
  rw [List.map_eq_nil_iff] at h3
  exact hc h3

theorem get_streak_details_other (c : List HabitCompletion) (hc : c ≠ []) :
    (get_streak_details c .OTHER).1 = 1 := by
  simp only [get_streak_details, if_neg hc]
  obtain ⟨d0, rest, hsd⟩ : ∃ d0 rest, sortedUniqueDates c = d0 :: rest := by
    rcases h : sortedUniqueDates c with _ | ⟨d0, rest⟩
    · exact absurd h (sortedUniqueDates_ne_nil c hc)
    · exact ⟨d0, rest, rfl⟩
  rw [hsd]
  have hscan := scanLoop_other rest ⟨1, 1, d0, d0, d0, d0⟩ rfl rfl
  simp only []
  rw [if_neg (by omega)]
  exact hscan.2

/-- C9: for every periodicity value (including invalid ones) and every `now`,
the empty completions list is not an error: `calculate_streak` returns 0 and
`get_streak_details` returns `(0, none, none)`, without raising. -/
theorem claim_C9 (p : PVal) (now : Int) :
    calculate_streak [] p now = .ok 0 ∧ get_streak_details [] p = (0, none, none) :=
  ⟨rfl, rfl⟩

/-- C4: both streak computations are deterministic functions of their inputs,
with the ambient clock read `datetime.now()` modelled as the explicit `now`
argument: equal inputs give equal results. -/
theorem claim_C4 (c1 c2 : List HabitCompletion) (p1 p2 : PVal) (n1 n2 : Int)
    (hc : c1 = c2) (hp : p1 = p2) (hn : n1 = n2) :
    calculate_streak c1 p1 n1 = calculate_streak c2 p2 n2 ∧
    get_streak_details c1 p1 = get_streak_details c2 p2 := by
  subst hc
  subst hp
  subst hn
  exact ⟨rfl, rfl⟩

theorem claim_C4_witness :
    calculate_streak [⟨1, toOrdinal 2024 1 1⟩] .DAILY (toOrdinal 2024 1 1) =
      calculate_streak [⟨1, toOrdinal 2024 1 1⟩] .DAILY (toOrdinal 2024 1 1) ∧
    get_streak_details [⟨1, toOrdinal 2024 1 1⟩] .DAILY =
      get_streak_details [⟨1, toOrdinal 2024 1 1⟩] .DAILY :=
  claim_C4 _ _ _ _ _ _ rfl rfl rfl

/-- C3 counterexample: the claim "both functions raise exactly when the
periodicity is invalid" fails in both directions on concrete inputs: with an
empty list and an invalid periodicity `calculate_streak` returns `ok 0`
without raising (the empty-list check precedes validation), and
`get_streak_details` never raises at all — with an invalid periodicity it
returns a streak of 1 for a non-empty list. -/
theorem claim_C3_counterexample :
    calculate_streak [] .OTHER 0 = .ok 0 ∧
    get_streak_details [⟨1, toOrdinal 2024 1 15⟩] .OTHER =
      (1, some (toOrdinal 2024 1 15), some (toOrdinal 2024 1 15)) :=
  ⟨rfl, by decide⟩

/-- C3 (amended): `calculate_streak` raises the invalid-periodicity error iff
the completions list is non-empty and the periodicity is outside
{DAILY, WEEKLY, MONTHLY}; `get_streak_details` never raises — on a non-empty
list with an invalid periodicity it treats no keys as consecutive and reports
a longest streak of 1. -/
theorem claim_C3 :
    (∀ (c : List HabitCompletion) (p : PVal) (now : Int),
      (∃ e, calculate_streak c p now = .error e) ↔ (c ≠ [] ∧ p = .OTHER)) ∧
    (∀ c : List HabitCompletion, c ≠ [] → (get_streak_details c .OTHER).1 = 1) := by
  constructor
  · intro c p now
    constructor
    · rintro ⟨e, he⟩
      by_cases hc : c = []
      · subst hc
        simp [calculate_streak] at he
      · refine ⟨hc, ?_⟩
        rcases p with _ | _ | _ | _
        · have h2 := calculate_streak_eq_ongoingSpec c .DAILY now (by intro h; cases h)
          rw [he] at h2
          exact Except.noConfusion h2
        · have h2 := calculate_streak_eq_ongoingSpec c .WEEKLY now (by intro h; cases h)
          rw [he] at h2
          exact Except.noConfusion h2
        · have h2 := calculate_streak_eq_ongoingSpec c .MONTHLY now (by intro h; cases h)
          rw [he] at h2
          exact Except.noConfusion h2
        · rfl
    · rintro ⟨hc, hp⟩
      subst hp
      refine ⟨"Invalid periodicity", ?_⟩
      simp only [calculate_streak, if_neg hc]
  · exact get_streak_details_other

theorem claim_C3_witness :
    (∃ e, calculate_streak [⟨1, toOrdinal 2024 1 15⟩] .OTHER 0 = .error e) ∧
    (get_streak_details [⟨1, toOrdinal 2024 1 15⟩] .OTHER).1 = 1 :=
  ⟨(claim_C3.1 _ .OTHER 0).mpr ⟨by decide, rfl⟩, claim_C3.2 _ (by decide)⟩

/-- C8: under MONTHLY periodicity the consecutiveness test of
`get_streak_details` returns true exactly when
`(yearB*12 + monthB) - (yearA*12 + monthA) = 1`, equivalently exactly when
the second date's month key is the predecessor-successor of the first; in
particular 2024-01-31 and 2024-02-01 lie in the consecutive monthly periods
(2024, 1) and (2024, 2) and the test returns true. -/
theorem claim_C8 :
    (∀ a b : Int, isConsecutive .MONTHLY a b = true ↔
      (yearOf b * 12 + monthOf b) - (yearOf a * 12 + monthOf a) = 1) ∧
    (∀ a b : Int, isConsecutive .MONTHLY a b = true ↔
      predKey (toPeriodKey .MONTHLY b) = toPeriodKey .MONTHLY a) ∧
    isConsecutive .MONTHLY (toOrdinal 2024 1 31) (toOrdinal 2024 2 1) = true ∧
    toPeriodKey .MONTHLY (toOrdinal 2024 1 31) = .month 2024 1 ∧
    toPeriodKey .MONTHLY (toOrdinal 2024 2 1) = .month 2024 2 := by
  refine ⟨fun a b => by simp [isConsecutive], fun a b => ?_, by decide, by decide, by decide⟩
  obtain ⟨ha1, ha2, -, -, -⟩ := fromOrdinal_spec a
  obtain ⟨hb1, hb2, -, -, -⟩ := fromOrdinal_spec b
  simp only [isConsecutive, toPeriodKey, predKey, beq_iff_eq]
  constructor
  · intro h
    rcases Decidable.em (monthOf b = 1) with hm | hm
    · rw [if_pos hm]
      have h2 : yearOf a = yearOf b - 1 ∧ monthOf a = 12 := by omega
      rw [h2.1, h2.2]
    · rw [if_neg hm]
      have h2 : yearOf a = yearOf b ∧ monthOf a = monthOf b - 1 := by omega
      rw [h2.1, h2.2]
  · intro h
    rcases Decidable.em (monthOf b = 1) with hm | hm
    · rw [if_pos hm] at h
      injection h with h1 h2
      omega
    · rw [if_neg hm] at h
      injection h with h1 h2
      omega

/-- C1: the claim that adding a completion whose timestamp maps to an
already-present period key never changes the streak results is violated by
`get_streak_details`, which deduplicates calendar dates rather than period
keys (contradicting its own comment at analytics.py lines 164-165).  With
monthly completions on 2024-01-15, 2024-02-15, 2024-03-15 the longest streak
is 3; adding 2024-02-20, whose key (2024, 2) is already present, splits the
scan and the result drops to 2.  `calculate_streak`, which does deduplicate
keys, is unaffected. -/
theorem claim_C1 :
    toPeriodKey .MONTHLY (toOrdinal 2024 2 20) = toPeriodKey .MONTHLY (toOrdinal 2024 2 15) ∧
    calculate_streak [⟨1, toOrdinal 2024 1 15⟩, ⟨1, toOrdinal 2024 2 15⟩,
        ⟨1, toOrdinal 2024 3 15⟩] .MONTHLY (toOrdinal 2024 3 20) = .ok 3 ∧
    calculate_streak [⟨1, toOrdinal 2024 1 15⟩, ⟨1, toOrdinal 2024 2 15⟩,
        ⟨1, toOrdinal 2024 2 20⟩, ⟨1, toOrdinal 2024 3 15⟩] .MONTHLY (toOrdinal 2024 3 20) =
      .ok 3 ∧
    get_streak_details [⟨1, toOrdinal 2024 1 15⟩, ⟨1, toOrdinal 2024 2 15⟩,
        ⟨1, toOrdinal 2024 3 15⟩] .MONTHLY =
      (3, some (toOrdinal 2024 1 15), some (toOrdinal 2024 3 15)) ∧
    get_streak_details [⟨1, toOrdinal 2024 1 15⟩, ⟨1, toOrdinal 2024 2 15⟩,
        ⟨1, toOrdinal 2024 2 20⟩, ⟨1, toOrdinal 2024 3 15⟩] .MONTHLY =
      (2, some (toOrdinal 2024 1 15), some (toOrdinal 2024 2 15)) :=
  ⟨by decide, by decide, by decide, by decide, by decide⟩

/-- C2: the claim that a non-zero ongoing streak never exceeds the longest
streak reported by `get_streak_details` fails on the code: with monthly
completions on 2024-01-15, 2024-02-15, 2024-02-20, 2024-03-15 and now
2024-03-20, the ongoing streak is 3 but `get_streak_details` reports 2,
because it deduplicates dates rather than period keys and the duplicate
February date splits its scan. -/
theorem claim_C2 :
    calculate_streak [⟨1, toOrdinal 2024 1 15⟩, ⟨1, toOrdinal 2024 2 15⟩,
        ⟨1, toOrdinal 2024 2 20⟩, ⟨1, toOrdinal 2024 3 15⟩] .MONTHLY (toOrdinal 2024 3 20) =
      .ok 3 ∧
    (get_streak_details [⟨1, toOrdinal 2024 1 15⟩, ⟨1, toOrdinal 2024 2 15⟩,
        ⟨1, toOrdinal 2024 2 20⟩, ⟨1, toOrdinal 2024 3 15⟩] .MONTHLY).1 = 2 :=
  ⟨by decide, by decide⟩

/-- C5: grace-period semantics of the ongoing streak.  For every completions
list, every valid periodicity and every `now`, `calculate_streak` computes
exactly the key-level policy of the spec: the run of consecutive present
period keys ending at the current key if it is present, else the run ending
at its predecessor if that is present (exactly one grace period at the head,
and the walk only ever moves backwards from `now`), else 0. -/
theorem claim_C5 (c : List HabitCompletion) (p : PVal) (now : Int) (hp : p ≠ PVal.OTHER) :
    calculate_streak c p now = .ok (ongoingSpec c p now) :=
  calculate_streak_eq_ongoingSpec c p now hp

theorem claim_C5_witness :
    calculate_streak [⟨1, toOrdinal 2024 1 1⟩, ⟨1, toOrdinal 2024 1 2⟩,
        ⟨1, toOrdinal 2024 1 3⟩, ⟨1, toOrdinal 2024 1 4⟩, ⟨1, toOrdinal 2024 1 5⟩]
        .DAILY (toOrdinal 2024 1 6) =
      .ok (ongoingSpec [⟨1, toOrdinal 2024 1 1⟩, ⟨1, toOrdinal 2024 1 2⟩,
        ⟨1, toOrdinal 2024 1 3⟩, ⟨1, toOrdinal 2024 1 4⟩, ⟨1, toOrdinal 2024 1 5⟩]
        .DAILY (toOrdinal 2024 1 6)) ∧
    ongoingSpec [⟨1, toOrdinal 2024 1 1⟩, ⟨1, toOrdinal 2024 1 2⟩,
        ⟨1, toOrdinal 2024 1 3⟩, ⟨1, toOrdinal 2024 1 4⟩, ⟨1, toOrdinal 2024 1 5⟩]
        .DAILY (toOrdinal 2024 1 6) = 5 :=
  ⟨claim_C5 _ .DAILY _ (by decide), by decide⟩

theorem getLastD_irrel (l : List Int) (h : l ≠ []) (d e : Int) :
    l.getLastD d = l.getLastD e := by
  cases l with
  | nil => exact absurd rfl h
  | cons a t => rw [List.getLastD_cons d a t, List.getLastD_cons e a t]

theorem getLast_eq_getLastD (l : List Int) (h : l ≠ []) :
    l.getLast h = l.getLastD 0 := by
  cases l with
  | nil => exact absurd rfl h
  | cons a t => rw [List.getLast_eq_getLastD, List.getLastD_cons]

theorem triple_of_ne_nil (l : List Int) (h : l ≠ []) :
    l.head? = some l.headI ∧ l.getLast? = some (l.getLastD 0) := by
  cases l with
  | nil => exact absurd rfl h
  | cons y ys =>
    refine ⟨rfl, ?_⟩
    rw [List.getLast?_eq_getLast (y :: ys) (by simp), getLast_eq_getLastD]

theorem runsBy_cons (R : Int → Int → Bool) :
    ∀ (l : List Int) (d : Int), ∃ t rs, runsBy R (d :: l) = (d :: t) :: rs := by
  intro l
  induction l with
  | nil => intro d; exact ⟨[], [], rfl⟩
  | cons e rest ih =>
    intro d
    obtain ⟨t, rs, ht⟩ := ih e
    simp only [runsBy]
    rw [ht]
    by_cases hR : R d e
    · refine ⟨e :: t, rs, ?_⟩
      show (if R d e then (d :: e :: t) :: rs else [d] :: (e :: t) :: rs) = (d :: e :: t) :: rs
      rw [if_pos hR]
    · refine ⟨[], (e :: t) :: rs, ?_⟩
      show (if R d e then (d :: e :: t) :: rs else [d] :: (e :: t) :: rs) =
        (d :: []) :: (e :: t) :: rs
      rw [if_neg hR]

theorem runsBy_ne_nil (R : Int → Int → Bool) :
    ∀ (l : List Int), ∀ r ∈ runsBy R l, r ≠ [] := by
  intro l
  induction l with
  | nil => intro r hr; simp [runsBy] at hr
  | cons d rest ih =>
    intro r hr
    cases rest with
    | nil =>
      simp only [runsBy, List.mem_singleton] at hr
      subst hr
      simp
    | cons e rest2 =>
      obtain ⟨t, rs, ht⟩ := runsBy_cons R rest2 e
      simp only [runsBy, ht] at hr
      by_cases hR : R d e
      · rw [if_pos hR] at hr
        rcases List.mem_cons.mp hr with h | h
        · subst h; simp
        · exact ih r (by rw [ht]; exact List.mem_cons_of_mem _ h)
      · rw [if_neg hR] at hr
        rcases List.mem_cons.mp hr with h | h
        · subst h; simp
        · exact ih r (by rw [ht]; exact h)

theorem runsBy_flatten (R : Int → Int → Bool) :
    ∀ l : List Int, (runsBy R l).flatten = l := by
  intro l
  induction l with
  | nil => rfl
  | cons d rest ih =>
    cases rest with
    | nil => rfl
    | cons e rest2 =>
      obtain ⟨t, rs, ht⟩ := runsBy_cons R rest2 e
      simp only [runsBy, ht]
      rw [ht] at ih
      simp only [List.flatten_cons, List.cons_append] at ih
      by_cases hR : R d e
      · rw [if_pos hR]
        simp only [List.flatten_cons, List.cons_append]
        rw [ih]
      · rw [if_neg hR]
        simp only [List.flatten_cons, List.cons_append, List.nil_append]
        rw [ih]

theorem scanLoop_prev (p : PVal) :
    ∀ (rest : List Int) (st : ScanState),
      (scanLoop p st rest).prev = (st.prev :: rest).getLastD 0 := by
  intro rest
  induction rest with
  | nil => intro st; rfl
  | cons d rest ih =>
    intro st
    simp only [scanLoop]
    by_cases hR : isConsecutive p st.prev d
    · rw [if_pos hR, ih]
      show (d :: rest).getLastD 0 = (st.prev :: d :: rest).getLastD 0
      rw [List.getLastD_cons 0 st.prev (d :: rest)]
      exact getLastD_irrel (d :: rest) (by simp) 0 st.prev
    · rw [if_neg hR, ih]
      show (d :: rest).getLastD 0 = (st.prev :: d :: rest).getLastD 0
      rw [List.getLastD_cons 0 st.prev (d :: rest)]
      exact getLastD_irrel (d :: rest) (by simp) 0 st.prev

theorem scanLoop_spec (p : PVal) :
    ∀ (rest : List Int) (st : ScanState) (r0 : List Int) (rs : List (List Int)),
      runsBy (isConsecutive p) (st.prev :: rest) = r0 :: rs →
      scanLoop p st rest = stOf (scanSpec (st.maxStreak, st.maxStart, st.maxEnd)
        (st.curStreak + r0.length - 1, st.curStart, r0.getLastD 0) rs) := by
  intro rest
  induction rest with
  | nil =>
    intro st r0 rs h
    have h2 : ([[st.prev]] : List (List Int)) = r0 :: rs := h
    injection h2 with h3 h4
    subst h3
    subst h4
    show st = stOf ((st.maxStreak, st.maxStart, st.maxEnd),
      (st.curStreak + 1 - 1, st.curStart, st.prev))
    simp only [stOf, Nat.add_sub_cancel]
  | cons d rest2 ih =>
    intro st r0 rs h
    obtain ⟨t, rs', ht⟩ := runsBy_cons (isConsecutive p) rest2 d
    simp only [runsBy, ht] at h
    simp only [scanLoop]
    by_cases hR : isConsecutive p st.prev d
    · rw [if_pos hR] at h
      injection h with h3 h4
      subst h3
      subst h4
      rw [if_pos hR]
      rw [ih {st with curStreak := st.curStreak + 1, prev := d} (d :: t) rs' ht]
      have hlen : st.curStreak + 1 + (d :: t).length - 1 =
          st.curStreak + (st.prev :: d :: t).length - 1 := by
        simp only [List.length_cons]
        omega
      have hlast : (d :: t).getLastD (0 : Int) = (st.prev :: d :: t).getLastD 0 := by
        rw [List.getLastD_cons 0 st.prev (d :: t)]
        exact getLastD_irrel (d :: t) (by simp) 0 st.prev
      show stOf (scanSpec (st.maxStreak, st.maxStart, st.maxEnd)
          (st.curStreak + 1 + (d :: t).length - 1, st.curStart, (d :: t).getLastD 0) rs') = _
      rw [hlen, hlast]
    · rw [if_neg hR] at h
      injection h with h3 h4
      subst h3
      subst h4
      rw [if_neg hR]
      show scanLoop p { (if st.curStreak > st.maxStreak then
            { st with maxStreak := st.curStreak, maxStart := st.curStart, maxEnd := st.prev }
          else st) with curStreak := 1, curStart := d, prev := d } rest2 = _
      simp only [scanSpec]
      have hE1 : st.curStreak + ([st.prev] : List Int).length - 1 = st.curStreak := by
        simp
      have hE2 : ([st.prev] : List Int).getLastD 0 = st.prev := rfl
      rw [hE1, hE2]
      have hrt : (1 + (d :: t).length - 1, d, (d :: t).getLastD (0 : Int)) =
          runTriple (d :: t) := by
        simp only [runTriple, List.headI]
        rw [Nat.add_sub_cancel_left]
      by_cases hC : st.curStreak > st.maxStreak
      · rw [if_pos hC]
        refine (ih _ (d :: t) rs' ht).trans ?_
        have hcl : closeOut (st.maxStreak, st.maxStart, st.maxEnd)
            (st.curStreak, st.curStart, st.prev) = (st.curStreak, st.curStart, st.prev) := by
          simp only [closeOut]
          rw [if_pos hC]
        rw [hcl]
        show stOf (scanSpec (st.curStreak, st.curStart, st.prev)
          (1 + (d :: t).length - 1, d, (d :: t).getLastD 0) rs') = _
        rw [hrt]
      · rw [if_neg hC]
        refine (ih _ (d :: t) rs' ht).trans ?_
        have hcl : closeOut (st.maxStreak, st.maxStart, st.maxEnd)
            (st.curStreak, st.curStart, st.prev) = (st.maxStreak, st.maxStart, st.maxEnd) := by
          simp only [closeOut]
          rw [if_neg hC]
        rw [hcl]
        show stOf (scanSpec (st.maxStreak, st.maxStart, st.maxEnd)
          (1 + (d :: t).length - 1, d, (d :: t).getLastD 0) rs') = _
        rw [hrt]

theorem scanSpec_final (rs : List (List Int)) :
    ∀ b e, closeOut (scanSpec b e rs).1 (scanSpec b e rs).2 =
      List.foldl closeOut b (e :: rs.map runTriple) := by
  induction rs with
  | nil => intro b e; rfl
  | cons r rs ih =>
    intro b e
    simp only [scanSpec]
    rw [List.map_cons, List.foldl_cons, List.foldl_cons]
    exact ih (closeOut b e) (runTriple r)

theorem pickBest_foldl (rs : List (List Int)) :
    ∀ r : List Int,
      runTriple (rs.foldl (fun best r2 => if r2.length > best.length then r2 else best) r) =
        List.foldl closeOut (runTriple r) (rs.map runTriple) := by
  induction rs with
  | nil => intro r; rfl
  | cons a rs ih =>
    intro r
    simp only [List.foldl_cons, List.map_cons]
    rw [ih (if a.length > r.length then a else r)]
    congr 1
    by_cases h : a.length > r.length
    · rw [if_pos h]
      simp only [closeOut, runTriple]
      rw [if_pos (by simpa using h)]
    · rw [if_neg h]
      simp only [closeOut, runTriple]
      rw [if_neg (by simpa using h)]

theorem pickBest_mem (rs : List (List Int)) :
    ∀ r : List Int,
      rs.foldl (fun best r2 => if r2.length > best.length then r2 else best) r ∈ r :: rs := by
  induction rs with
  | nil => intro r; simp
  | cons a rs ih =>
    intro r
    rw [List.foldl_cons]
    have h := ih ((fun best r2 => if r2.length > best.length then r2 else best) r a)
    rcases List.mem_cons.mp h with h1 | h1
    · rw [h1]
      dsimp only
      by_cases h2 : a.length > r.length
      · rw [if_pos h2]
        simp
      · rw [if_neg h2]
        simp
    · simp [h1]

theorem closeOut_first (d : Int) (t : List Int) :
    closeOut (1, d, d) (runTriple (d :: t)) = runTriple (d :: t) := by
  cases t with
  | nil => rfl
  | cons a t2 =>
    simp only [closeOut]
    rw [if_pos (by simp only [runTriple, List.length_cons]; omega)]

theorem get_eq_longestSpec (c : List HabitCompletion) (p : PVal) :
    get_streak_details c p = longestSpec c p := by
  by_cases hc : c = []
  · subst hc
    rfl
  · simp only [get_streak_details, if_neg hc]
    obtain ⟨d0, rest, hsd⟩ : ∃ d0 rest, sortedUniqueDates c = d0 :: rest := by
      rcases h : sortedUniqueDates c with _ | ⟨d0, rest⟩
      · exact absurd h (sortedUniqueDates_ne_nil c hc)
      · exact ⟨d0, rest, rfl⟩
    rw [hsd]
    obtain ⟨t, rs, hrun⟩ := runsBy_cons (isConsecutive p) rest d0
    obtain ⟨B, C, hBC⟩ : ∃ B C,
        scanSpec (1, d0, d0) (runTriple (d0 :: t)) rs = (B, C) := ⟨_, _, rfl⟩
    have hscan : scanLoop p ⟨1, 1, d0, d0, d0, d0⟩ rest = stOf (B, C) := by
      refine (scanLoop_spec p rest ⟨1, 1, d0, d0, d0, d0⟩ (d0 :: t) rs hrun).trans ?_
      show stOf (scanSpec (1, d0, d0)
        (1 + (d0 :: t).length - 1, d0, (d0 :: t).getLastD 0) rs) = _
      rw [show (1 + (d0 :: t).length - 1, d0, (d0 :: t).getLastD (0 : Int)) =
        runTriple (d0 :: t) by simp only [runTriple, List.headI]; rw [Nat.add_sub_cancel_left]]
      rw [hBC]
    have hprev : C.2.2 = (d0 :: rest).getLastD 0 := by
      have h1 : (scanLoop p ⟨1, 1, d0, d0, d0, d0⟩ rest).prev = (d0 :: rest).getLastD 0 :=
        scanLoop_prev p rest ⟨1, 1, d0, d0, d0, d0⟩
      rw [hscan] at h1
      exact h1
    have hT : closeOut B C = runTriple (rs.foldl
        (fun best r2 => if r2.length > best.length then r2 else best) (d0 :: t)) := by
      have hB : B = (scanSpec (1, d0, d0) (runTriple (d0 :: t)) rs).1 := by rw [hBC]
      have hC : C = (scanSpec (1, d0, d0) (runTriple (d0 :: t)) rs).2 := by rw [hBC]
      rw [hB, hC]
      rw [scanSpec_final rs (1, d0, d0) (runTriple (d0 :: t))]
      rw [List.foldl_cons, closeOut_first]
      exact (pickBest_foldl rs (d0 :: t)).symm
    set rbest := rs.foldl (fun best r2 => if r2.length > best.length then r2 else best) (d0 :: t)
      with hrbest
    have hrbne : rbest ≠ [] := by
      refine runsBy_ne_nil (isConsecutive p) (d0 :: rest) rbest ?_
      rw [hrun]
      exact pickBest_mem rs (d0 :: t)
    have hls : longestSpec c p = (rbest.length, rbest.head?, rbest.getLast?) := by
      simp only [longestSpec]
      rw [hsd, hrun]
      simp only [pickBest]
    rw [hls]
    obtain ⟨hhd, hlt⟩ := triple_of_ne_nil rbest hrbne
    rw [hhd, hlt]
    simp only []
    rw [hscan]
    show (if C.1 > B.1 then (C.1, some C.2.1, some ((d0 :: rest).getLast (by simp)))
      else (B.1, some B.2.1, some B.2.2)) =
      (rbest.length, some rbest.headI, some (rbest.getLastD 0))
    have hgl : (d0 :: rest).getLast (by simp) = C.2.2 := by
      rw [getLast_eq_getLastD (d0 :: rest) (by simp)]
      exact hprev.symm
    rw [hgl]
    by_cases hCB : C.1 > B.1
    · rw [if_pos hCB]
      have hCr : C = runTriple rbest := by
        rw [← hT]
        simp only [closeOut]
        rw [if_pos hCB]
      rw [hCr]
      rfl
    · rw [if_neg hCB]
      have hBr : B = runTriple rbest := by
        rw [← hT]
        simp only [closeOut]
        rw [if_neg hCB]
      rw [hBr]
      rfl

/-- C6: `get_streak_details` implements the spec's longest-streak contract
(section 4.3) exactly: its result is the `(length, first date, last date)` of
the earliest-found maximal consecutive run of the sorted unique dates — the
best is replaced only on strictly greater length (`>`, not `≥`, so ties keep
the earliest run) and the final running streak is closed out and compared
once after the scan, so a longest run reaching the last sorted date is
reported with that date as its end.  In particular, scenario E: daily
completions on 2024-01-01, 01-02, 01-03, then 01-10 and 01-11, give
`(3, 2024-01-01, 2024-01-03)`. -/
theorem claim_C6 :
    (∀ (c : List HabitCompletion) (p : PVal), get_streak_details c p = longestSpec c p) ∧
    get_streak_details
      [⟨1, toOrdinal 2024 1 1⟩, ⟨1, toOrdinal 2024 1 2⟩, ⟨1, toOrdinal 2024 1 3⟩,
       ⟨1, toOrdinal 2024 1 10⟩, ⟨1, toOrdinal 2024 1 11⟩] PVal.DAILY =
      (3, some (toOrdinal 2024 1 1), some (toOrdinal 2024 1 3)) :=
  ⟨get_eq_longestSpec, by decide⟩

/-- C10: for every non-empty completions list and every valid periodicity,
`get_streak_details` returns a length of at least 1, a `some` start and a
`some` end, with start ≤ end and both drawn from the input's completion
dates. -/
theorem claim_C10 (c : List HabitCompletion) (p : PVal) (hc : c ≠ []) (hp : p ≠ PVal.OTHER) :
    ∃ (n : Nat) (ds de : Int),
      get_streak_details c p = (n, some ds, some de) ∧ 1 ≤ n ∧ ds ≤ de ∧
      ds ∈ c.map (fun cc => cc.completed_at) ∧ de ∈ c.map (fun cc => cc.completed_at) := by
  rw [get_eq_longestSpec c p]
  obtain ⟨d0, rest, hsd⟩ : ∃ d0 rest, sortedUniqueDates c = d0 :: rest := by
    rcases h : sortedUniqueDates c with _ | ⟨d0, rest⟩
    · exact absurd h (sortedUniqueDates_ne_nil c hc)
    · exact ⟨d0, rest, rfl⟩
  obtain ⟨t, rs, hrun⟩ := runsBy_cons (isConsecutive p) rest d0
  set rbest := rs.foldl (fun best r2 => if r2.length > best.length then r2 else best) (d0 :: t)
    with hrbest
  have hls : longestSpec c p = (rbest.length, rbest.head?, rbest.getLast?) := by
    simp only [longestSpec]
    rw [hsd, hrun]
    simp only [pickBest]
  have hmem : rbest ∈ runsBy (isConsecutive p) (d0 :: rest) := by
    rw [hrun]
    exact pickBest_mem rs (d0 :: t)
  have hne : rbest ≠ [] := runsBy_ne_nil (isConsecutive p) (d0 :: rest) rbest hmem
  have hinf : rbest <:+: (d0 :: rest) := by
    have h2 := List.infix_of_mem_flatten hmem
    rwa [runsBy_flatten] at h2
  have hsorted : List.Sorted (fun a b : Int => a ≤ b) (d0 :: rest) := by
    rw [← hsd]
    exact List.sorted_insertionSort (fun a b : Int => a ≤ b) _
  have hsorted_rb : List.Sorted (fun a b : Int => a ≤ b) rbest := hsorted.sublist hinf.sublist
  obtain ⟨y, ys, hrb⟩ : ∃ y ys, rbest = y :: ys := by
    rcases h : rbest with _ | ⟨y, ys⟩
    · exact absurd h hne
    · exact ⟨y, ys, rfl⟩
  have hhead : rbest.head? = some y := by rw [hrb]; rfl
  have hlastq : rbest.getLast? = some (rbest.getLastD 0) := (triple_of_ne_nil rbest hne).2
  have hde_mem_rb : rbest.getLastD 0 ∈ rbest := by
    rw [hrb, ← getLast_eq_getLastD (y :: ys) (by simp)]
    exact List.getLast_mem (by simp)
  have hy_mem_rb : y ∈ rbest := by rw [hrb]; simp
  have hy_le_de : y ≤ rbest.getLastD 0 := by
    rw [hrb] at hsorted_rb hde_mem_rb ⊢
    rcases List.mem_cons.mp hde_mem_rb with h | h
    · rw [h]
    · exact List.rel_of_sorted_cons hsorted_rb _ h
  have hsub : ∀ x ∈ rbest, x ∈ c.map (fun cc => cc.completed_at) := by
    intro x hx
    have hx2 : x ∈ d0 :: rest := hinf.sublist.subset hx
    rw [← hsd] at hx2
    simp only [sortedUniqueDates] at hx2
    rw [(List.perm_insertionSort _ _).mem_iff] at hx2
    exact List.mem_dedup.mp hx2
  refine ⟨rbest.length, y, rbest.getLastD 0, ?_, ?_, hy_le_de,
    hsub y hy_mem_rb, hsub _ hde_mem_rb⟩
  · rw [hls, hhead, hlastq]
  · rw [hrb]
    simp only [List.length_cons]
    omega

/-- Witness for C10: a concrete non-empty daily input. -/
theorem claim_C10_witness :
    ([⟨1, 738916⟩] : List HabitCompletion) ≠ [] ∧ PVal.DAILY ≠ PVal.OTHER ∧
    ∃ (n : Nat) (ds de : Int),
      get_streak_details [⟨1, 738916⟩] PVal.DAILY = (n, some ds, some de) ∧ 1 ≤ n ∧ ds ≤ de ∧
      ds ∈ ([⟨1, 738916⟩] : List HabitCompletion).map (fun cc => cc.completed_at) ∧
      de ∈ ([⟨1, 738916⟩] : List HabitCompletion).map (fun cc => cc.completed_at) :=
  ⟨by decide, by decide, claim_C10 [⟨1, 738916⟩] PVal.DAILY (by decide) (by decide)⟩

theorem run_le_dedup (keys : List PeriodKey) (k : PeriodKey) (n : Nat)
    (hmem : ∀ i, i < n → predKey^[i] k ∈ keys)
    (hdist : ∀ i j : Nat, i < j → j < n → predKey^[i] k ≠ predKey^[j] k) :
    n ≤ keys.dedup.length := by
  have hsub : ((List.range n).map (fun i => predKey^[i] k)) ⊆ keys.dedup := by
    intro x hx
    obtain ⟨i, hi, hix⟩ := List.mem_map.mp hx
    rw [List.mem_dedup, ← hix]
    exact hmem i (by simpa using hi)
  have hnodup : ((List.range n).map (fun i => predKey^[i] k)).Nodup := by
    refine List.Nodup.map_on ?_ (List.nodup_range n)
    intro i hi j hj hij
    by_contra hne
    rcases Nat.lt_or_ge i j with h | h
    · exact hdist i j h (by simpa using hj) hij
    · have h2 : j < i := by omega
      exact hdist j i h2 (by simpa using hi) hij.symm
  have h3 := List.Subperm.length_le (hnodup.subperm hsub)
  simpa using h3

theorem distinct_valid (p : PVal) (hp : p ≠ PVal.OTHER) (t : Int) (i j : Nat) (hij : i < j) :
    predKey^[i] (toPeriodKey p t) ≠ predKey^[j] (toPeriodKey p t) := by
  cases p
  · exact distinct_day t i j hij
  · exact distinct_week t i j hij
  · exact distinct_month t i j hij
  · exact absurd rfl hp

theorem predKey_toPeriodKey (p : PVal) (hp : p ≠ PVal.OTHER) (t : Int) :
    ∃ u, predKey (toPeriodKey p t) = toPeriodKey p u := by
  cases p
  · exact ⟨t - 1, rfl⟩
  · exact ⟨t - 7, predKey_week t⟩
  · exact ⟨prevMonthEnd t, predKey_month t⟩
  · exact absurd rfl hp

theorem distinct_startKey (c : List HabitCompletion) (p : PVal) (now : Int)
    (hp : p ≠ PVal.OTHER) (i j : Nat) (hij : i < j) :
    predKey^[i] (startKey c p now) ≠ predKey^[j] (startKey c p now) := by
  unfold startKey
  by_cases hcur : toPeriodKey p now ∈ keysOf c p
  · rw [if_pos hcur]
    exact distinct_valid p hp now i j hij
  · rw [if_neg hcur]
    obtain ⟨u, hu⟩ := predKey_toPeriodKey p hp now
    rw [hu]
    exact distinct_valid p hp u i j hij

/-- C7 (amended): the spec's monotonic-extension law needs a proviso (see
`claim_C7_counterexample`: when the period before the added one is itself
completed, the addition reconnects an older run and the increase exceeds 1).
Amended law, for a non-zero ongoing streak `s` whose walk starts at
`startKey` (the current period if completed, else its predecessor):
(a) adding one completion in the period immediately before the earliest
streak period (`predKey^[s] startKey`) raises `calculate_streak` to exactly
`s + 1`, provided the period before that one is not completed; (b) adding
one completion in any period other than that one and the current period —
in particular any period separated from the streak by a gap — leaves the
result `s` unchanged. -/
theorem claim_C7 (c : List HabitCompletion) (p : PVal) (now : Int) (x : HabitCompletion)
    (hp : p ≠ PVal.OTHER) (s : Nat) (hs : calculate_streak c p now = Except.ok s)
    (hs0 : s ≠ 0) :
    (toPeriodKey p x.completed_at = predKey^[s] (startKey c p now) →
      predKey^[s] (predKey (startKey c p now)) ∉ keysOf c p →
      calculate_streak (c ++ [x]) p now = Except.ok (s + 1)) ∧
    (toPeriodKey p x.completed_at ≠ predKey^[s] (startKey c p now) →
      toPeriodKey p x.completed_at ≠ toPeriodKey p now →
      calculate_streak (c ++ [x]) p now = Except.ok s) := by
  have hks : keysOf (c ++ [x]) p = keysOf c p ++ [toPeriodKey p x.completed_at] := by
    simp [keysOf]
  have hmem' : ∀ k : PeriodKey, k ∈ keysOf (c ++ [x]) p ↔
      k ∈ keysOf c p ∨ k = toPeriodKey p x.completed_at := by
    intro k
    rw [hks]
    simp
  rw [calculate_streak_eq_ongoingSpec c p now hp] at hs
  have hs2 : ongoingSpec c p now = s := by simpa using hs
  simp only [ongoingSpec] at hs2
  have hdist := distinct_startKey c p now hp
  have hbr : startKey c p now ∈ keysOf c p ∧
      chainLen (keysOf c p) ((keysOf c p).dedup.length + 1) (startKey c p now) = s := by
    by_cases h1 : toPeriodKey p now ∈ keysOf c p
    · have hst : startKey c p now = toPeriodKey p now := by unfold startKey; rw [if_pos h1]
      rw [if_pos h1] at hs2
      rw [hst]
      exact ⟨h1, hs2⟩
    · rw [if_neg h1] at hs2
      by_cases h2 : predKey (toPeriodKey p now) ∈ keysOf c p
      · have hst : startKey c p now = predKey (toPeriodKey p now) := by
          unfold startKey; rw [if_neg h1]
        rw [if_pos h2] at hs2
        rw [hst]
        exact ⟨h2, hs2⟩
      · rw [if_neg h2] at hs2
        exact absurd hs2.symm hs0
  obtain ⟨hstmem, hchain⟩ := hbr
  have hsf : s < (keysOf c p).dedup.length + 1 := by
    have hb := chainLen_bound (keysOf c p) ((keysOf c p).dedup.length + 1) (startKey c p now)
      (fun i j hij _ => hdist i j hij)
    omega
  have hmemS : ∀ i, i < s → predKey^[i] (startKey c p now) ∈ keysOf c p := by
    intro i hi
    refine chainLen_mem (keysOf c p) ((keysOf c p).dedup.length + 1) (startKey c p now) i ?_
    rw [hchain]
    exact hi
  have hstopS : predKey^[s] (startKey c p now) ∉ keysOf c p := by
    have h2 := chainLen_stop (keysOf c p) ((keysOf c p).dedup.length + 1) (startKey c p now)
      (by rw [hchain]; exact hsf)
    rw [hchain] at h2
    exact h2
  have hstform : startKey c p now = toPeriodKey p now ∨
      startKey c p now = predKey (toPeriodKey p now) := by
    unfold startKey
    by_cases h1 : toPeriodKey p now ∈ keysOf c p
    · left
      rw [if_pos h1]
    · right
      rw [if_neg h1]
  have hstopcur : predKey^[s] (startKey c p now) ≠ toPeriodKey p now := by
    rcases hstform with h | h
    · rw [h]
      intro hcon
      exact distinct_valid p hp now 0 s (by omega) (by simpa using hcon.symm)
    · rw [h]
      intro hcon
      rw [show predKey^[s] (predKey (toPeriodKey p now)) =
        predKey^[s + 1] (toPeriodKey p now) from (Function.iterate_succ_apply _ _ _).symm] at hcon
      exact distinct_valid p hp now 0 (s + 1) (by omega) (by simpa using hcon.symm)
  constructor
  · intro ha hb2
    rw [calculate_streak_eq_ongoingSpec (c ++ [x]) p now hp]
    have hkxcur : toPeriodKey p x.completed_at ≠ toPeriodKey p now := by
      rw [ha]
      exact hstopcur
    have hmem2 : ∀ i, i < s + 1 → predKey^[i] (startKey c p now) ∈ keysOf (c ++ [x]) p := by
      intro i hi
      rw [hmem' _]
      rcases Nat.lt_or_ge i s with h | h
      · exact Or.inl (hmemS i h)
      · have hieq : i = s := by omega
        subst hieq
        exact Or.inr ha.symm
    have hstop2 : predKey^[s + 1] (startKey c p now) ∉ keysOf (c ++ [x]) p := by
      rw [hmem' _]
      push_neg
      constructor
      · rw [Function.iterate_succ_apply]
        exact hb2
      · rw [ha]
        exact fun hcon => hdist s (s + 1) (by omega) hcon.symm
    have hsf2 : s + 1 < (keysOf (c ++ [x]) p).dedup.length + 1 := by
      have hb := run_le_dedup (keysOf (c ++ [x]) p) (startKey c p now) (s + 1) hmem2
        (fun i j hij _ => hdist i j hij)
      omega
    have hchain2 : chainLen (keysOf (c ++ [x]) p) ((keysOf (c ++ [x]) p).dedup.length + 1)
        (startKey c p now) = s + 1 :=
      chainLen_eq_of_run (keysOf (c ++ [x]) p) (s + 1)
        ((keysOf (c ++ [x]) p).dedup.length + 1) (startKey c p now) hsf2 hmem2 hstop2
    have hgoal : ongoingSpec (c ++ [x]) p now = s + 1 := by
      simp only [ongoingSpec]
      by_cases h1 : toPeriodKey p now ∈ keysOf c p
      · have hst : startKey c p now = toPeriodKey p now := by unfold startKey; rw [if_pos h1]
        have h1b : toPeriodKey p now ∈ keysOf (c ++ [x]) p := by
          rw [hmem' _]
          exact Or.inl h1
        rw [if_pos h1b, ← hst]
        exact hchain2
      · have hst : startKey c p now = predKey (toPeriodKey p now) := by
          unfold startKey; rw [if_neg h1]
        have h1b : toPeriodKey p now ∉ keysOf (c ++ [x]) p := by
          rw [hmem' _]
          push_neg
          exact ⟨h1, fun hcon => hkxcur hcon.symm⟩
        have h2b : predKey (toPeriodKey p now) ∈ keysOf (c ++ [x]) p := by
          rw [hmem' _]
          refine Or.inl ?_
          rw [← hst]
          exact hstmem
        rw [if_neg h1b, if_pos h2b, ← hst]
        exact hchain2
    rw [hgoal]
  · intro ha hb
    rw [calculate_streak_eq_ongoingSpec (c ++ [x]) p now hp]
    have hmem2 : ∀ i, i < s → predKey^[i] (startKey c p now) ∈ keysOf (c ++ [x]) p := by
      intro i hi
      rw [hmem' _]
      exact Or.inl (hmemS i hi)
    have hstop2 : predKey^[s] (startKey c p now) ∉ keysOf (c ++ [x]) p := by
      rw [hmem' _]
      push_neg
      exact ⟨hstopS, fun hcon => ha hcon.symm⟩
    have hsf2 : s < (keysOf (c ++ [x]) p).dedup.length + 1 := by
      have hb3 := run_le_dedup (keysOf (c ++ [x]) p) (startKey c p now) s hmem2
        (fun i j hij _ => hdist i j hij)
      omega
    have hchain2 : chainLen (keysOf (c ++ [x]) p) ((keysOf (c ++ [x]) p).dedup.length + 1)
        (startKey c p now) = s :=
      chainLen_eq_of_run (keysOf (c ++ [x]) p) s
        ((keysOf (c ++ [x]) p).dedup.length + 1) (startKey c p now) hsf2 hmem2 hstop2
    have hgoal : ongoingSpec (c ++ [x]) p now = s := by
      simp only [ongoingSpec]
      by_cases h1 : toPeriodKey p now ∈ keysOf c p
      · have hst : startKey c p now = toPeriodKey p now := by unfold startKey; rw [if_pos h1]
        have h1b : toPeriodKey p now ∈ keysOf (c ++ [x]) p := by
          rw [hmem' _]
          exact Or.inl h1
        rw [if_pos h1b, ← hst]
        exact hchain2
      · have hst : startKey c p now = predKey (toPeriodKey p now) := by
          unfold startKey; rw [if_neg h1]
        have h1b : toPeriodKey p now ∉ keysOf (c ++ [x]) p := by
          rw [hmem' _]
          push_neg
          exact ⟨h1, fun hcon => hb hcon.symm⟩
        have h2b : predKey (toPeriodKey p now) ∈ keysOf (c ++ [x]) p := by
          rw [hmem' _]
          refine Or.inl ?_
          rw [← hst]
          exact hstmem
        rw [if_neg h1b, if_pos h2b, ← hst]
        exact hchain2
    rw [hgoal]

/-- C7 counterexample: with daily completions on 2024-01-03 and 2024-01-05 and
now = 2024-01-05, the ongoing streak is 1, its earliest (only) period being
2024-01-05; adding one completion in the period immediately before it
(2024-01-04) reconnects the run back to 2024-01-03 and raises the result to
3 — an increase of 2, refuting the claimed "exactly 1". -/
theorem claim_C7_counterexample :
    calculate_streak [⟨1, toOrdinal 2024 1 3⟩, ⟨1, toOrdinal 2024 1 5⟩] PVal.DAILY
      (toOrdinal 2024 1 5) = Except.ok 1 ∧
    toPeriodKey PVal.DAILY (toOrdinal 2024 1 4) =
      predKey^[1] (startKey [⟨1, toOrdinal 2024 1 3⟩, ⟨1, toOrdinal 2024 1 5⟩] PVal.DAILY
        (toOrdinal 2024 1 5)) ∧
    calculate_streak ([⟨1, toOrdinal 2024 1 3⟩, ⟨1, toOrdinal 2024 1 5⟩] ++
      [⟨1, toOrdinal 2024 1 4⟩]) PVal.DAILY (toOrdinal 2024 1 5) = Except.ok 3 :=
  ⟨by decide, by decide, by decide⟩

/-- Witness for C7: daily completions on 2024-01-04 and 2024-01-05 with
now = 2024-01-05 (ongoing streak 2); adding 2024-01-03 (the period
immediately before the earliest streak period, with 2024-01-02 not
completed) gives exactly 3, and adding the gap-separated 2024-01-01 leaves
the result at 2. -/
theorem claim_C7_witness :
    calculate_streak ([⟨1, toOrdinal 2024 1 4⟩, ⟨1, toOrdinal 2024 1 5⟩] ++
      [⟨1, toOrdinal 2024 1 3⟩]) PVal.DAILY (toOrdinal 2024 1 5) = Except.ok 3 ∧
    calculate_streak ([⟨1, toOrdinal 2024 1 4⟩, ⟨1, toOrdinal 2024 1 5⟩] ++
      [⟨1, toOrdinal 2024 1 1⟩]) PVal.DAILY (toOrdinal 2024 1 5) = Except.ok 2 :=
  ⟨(claim_C7 [⟨1, toOrdinal 2024 1 4⟩, ⟨1, toOrdinal 2024 1 5⟩] PVal.DAILY
      (toOrdinal 2024 1 5) ⟨1, toOrdinal 2024 1 3⟩ (by decide) 2 (by decide) (by decide)).1
      (by decide) (by decide),
   (claim_C7 [⟨1, toOrdinal 2024 1 4⟩, ⟨1, toOrdinal 2024 1 5⟩] PVal.DAILY
      (toOrdinal 2024 1 5) ⟨1, toOrdinal 2024 1 1⟩ (by decide) 2 (by decide) (by decide)).2
      (by decide) (by decide)⟩
